import Mathlib

/-!
Verification of the seqkmer minimizer-scanning library.

The scanner core (`src/mmscanner.rs`), the pairing helpers (`src/utils.rs`,
`src/reader.rs`) are embedded shallowly below: `u64` values become `Nat`
(all operations the source performs stay below `2 ^ 64`, and the one place
where 64-bit wraparound matters, `fmix64`, reduces modulo `2 ^ 64`
explicitly), byte slices become `List Nat`, the `VecDeque` becomes a
`List` whose head is the deque front, and the fallible constructor
`OptionPair::from_slice` returns an `Option`.

The configuration module `src/feat.rs` (struct `Meros`, `char_to_value`,
`canonical_representation`, `fmix64`, `window_size`) is not among the
provided sources; those definitions are modelled from the spec and are
marked `Modelled from the spec:` in their doc comments.
-/

namespace Seqkmer

/-- Modelled from the spec: constant `BITS_PER_CHAR = 2` (src/feat.rs is
not among the provided sources). -/
def BITS_PER_CHAR : Nat := 2

/-- Modelled from the spec: `char_to_value` maps `{A,C,G,T}`
(case-insensitive) to the 2-bit codes `{0,1,2,3}` in the listed order and
every other byte to `none` (src/feat.rs is not among the provided
sources). Bytes are modelled as `Nat` (A=65, C=67, G=71, T=84 plus the
lowercase codes). -/
def char_to_value (c : Nat) : Option Nat :=
  if c = 65 ∨ c = 97 then some 0
  else if c = 67 ∨ c = 99 then some 1
  else if c = 71 ∨ c = 103 then some 2
  else if c = 84 ∨ c = 116 then some 3
  else none

/-- Big-endian base-4 digit list of `x`, `n` digits (most significant
first). Helper for the spec-modelled reverse complement. -/
def toCodes (x n : Nat) : List Nat :=
  (List.range n).map (fun i => x / 4 ^ (n - 1 - i) % 4)

/-- Value of a big-endian base-4 digit list (most significant first). -/
def ofCodes (ds : List Nat) : Nat := ds.foldl (fun v d => 4 * v + d) 0

/-- Modelled from the spec: the reverse complement of an `n`-base packed
l-mer "flips bit pairs and reverses their order"; a 2-bit base code `d`
complements to `3 - d` (src/feat.rs is not among the provided sources). -/
def reverse_complement (x n : Nat) : Nat :=
  ofCodes ((toCodes x n).reverse.map (fun d => 3 - d))

/-- Modelled from the spec: `canonical_representation(lmer, l)` returns
`min(lmer, reverse_complement(lmer, l))` (src/feat.rs is not among the
provided sources). -/
def canonical_representation (x n : Nat) : Nat :=
  min x (reverse_complement x n)

/-- Modelled from the spec: `fmix64` is the MurmurHash3 64-bit finalizer
(src/feat.rs is not among the provided sources); 64-bit wraparound is made
explicit with `% 2 ^ 64`. -/
def fmix64 (k0 : Nat) : Nat :=
  let k1 := (k0 ^^^ (k0 >>> 33)) % 2 ^ 64
  let k2 := k1 * 0xff51afd7ed558ccd % 2 ^ 64
  let k3 := (k2 ^^^ (k2 >>> 33)) % 2 ^ 64
  let k4 := k3 * 0xc4ceb9fe1a85ec53 % 2 ^ 64
  (k4 ^^^ (k4 >>> 33)) % 2 ^ 64

/-- Modelled from the spec: the immutable `Meros` scanning configuration
(src/feat.rs is not among the provided sources): `k_mer`, `l_mer`,
`spaced_seed_mask` (0 disables spaced seeding), `toggle_mask`, and the
cursor clamp `mask = (1 << (2 * l_mer)) - 1`. -/
structure Meros where
  k_mer : Nat
  l_mer : Nat
  spaced_seed_mask : Nat
  toggle_mask : Nat
  mask : Nat
  deriving Repr, DecidableEq

/-- Modelled from the spec: "window size = k_mer - l_mer + 1". -/
def Meros.window_size (m : Meros) : Nat := m.k_mer - m.l_mer + 1

/-- Modelled from the spec: builds a `Meros` from `k_mer`, `l_mer`,
`spaced_seed_mask` and `toggle_mask`, precomputing the derived `mask`. -/
def Meros.create (k l sssm tog : Nat) : Meros :=
  ⟨k, l, sssm, tog, 2 ^ (2 * l) - 1⟩

/-- Source `src/mmscanner.rs` `to_candidate_lmer`: canonicalize the l-mer,
apply the spaced-seed mask when it is non-zero, then XOR the toggle mask. -/
def to_candidate_lmer (meros : Meros) (lmer : Nat) : Nat :=
  let canonical0 := canonical_representation lmer meros.l_mer
  let canonical1 :=
    if 0 < meros.spaced_seed_mask then canonical0 &&& meros.spaced_seed_mask
    else canonical0
  canonical1 ^^^ meros.toggle_mask

/-- Source `src/mmscanner.rs` `MinimizerData`: a deque entry holding the
l-mer ordinal `pos` and the candidate l-mer. -/
structure MinimizerData where
  pos : Nat
  candidate_lmer : Nat
  deriving Repr, DecidableEq

/-- The `while let Some(m_data) = queue.back() ... pop_back` loop of
`MinimizerWindow::next`: remove the maximal suffix of the deque whose
elements satisfy `p`. -/
def popBackWhile {α : Type} (p : α → Bool) (q : List α) : List α :=
  (q.reverse.dropWhile p).reverse

/-- The front-eviction `while` loop of `MinimizerWindow::next`: pop from
the front while the front satisfies `p`; the returned flag records whether
at least one element was popped (each pop sets `changed = true`). -/
def popFrontWhile {α : Type} (p : α → Bool) : List α → List α × Bool
  | [] => ([], false)
  | a :: rest =>
    if p a then ((popFrontWhile p rest).1, true) else (a :: rest, false)

/-- Source `src/mmscanner.rs` `MinimizerWindow`: the monotonic deque
(`queue`, head = front), the unused `queue_pos`, the `capacity`
(`window_size`) and the processed-candidate `count`. -/
structure MinimizerWindow where
  queue : List MinimizerData
  queue_pos : Nat
  capacity : Nat
  count : Nat
  deriving Repr, DecidableEq

/-- Source `MinimizerWindow::new(capacity)`. -/
def MinimizerWindow.mkNew (capacity : Nat) : MinimizerWindow :=
  ⟨[], 0, capacity, 0⟩

/-- Source `MinimizerWindow::next`: fast path for capacity 1; otherwise
evict the strictly-greater suffix, set `changed` when the queue emptied
after the window filled or at the instant `count == capacity`, push the
new entry, evict out-of-window fronts (setting `changed`), bump `count`,
and return the front exactly when `changed`. -/
def MinimizerWindow.next (w : MinimizerWindow) (candidate_lmer : Nat) :
    Option Nat × MinimizerWindow :=
  if w.capacity = 1 then (some candidate_lmer, w)
  else
    let data : MinimizerData := ⟨w.count, candidate_lmer⟩
    let q1 := popBackWhile (fun d => decide (candidate_lmer < d.candidate_lmer)) w.queue
    let changed1 : Bool :=
      (q1.isEmpty && decide (w.capacity ≤ w.count)) || decide (w.count = w.capacity)
    let q2 := q1 ++ [data]
    let fr := popFrontWhile
      (fun d => decide (w.capacity ≤ w.count) && decide (d.pos < w.count - w.capacity)) q2
    let changed : Bool := changed1 || fr.2
    ((if changed then fr.1.head?.map MinimizerData.candidate_lmer else none),
     ⟨fr.1, w.queue_pos, w.capacity, w.count + 1⟩)

/-- Source `MinimizerWindow::clear`. -/
def MinimizerWindow.clear (w : MinimizerWindow) : MinimizerWindow :=
  ⟨[], 0, w.capacity, 0⟩

/-- Source `src/mmscanner.rs` `Cursor`: the rolling 2-bit packed l-mer
accumulator. -/
structure Cursor where
  pos : Nat
  capacity : Nat
  value : Nat
  mask : Nat
  deriving Repr, DecidableEq

/-- Source `Cursor::new(meros)`. -/
def Cursor.mkNew (meros : Meros) : Cursor :=
  ⟨0, meros.l_mer, 0, meros.mask⟩

/-- Source `Cursor::next_lmer`: shift in the 2-bit code, clamp with the
mask, bump `pos`, and yield the value once `pos >= capacity`. -/
def Cursor.next_lmer (c : Cursor) (item : Nat) : Option Nat × Cursor :=
  let value := ((c.value <<< BITS_PER_CHAR) ||| item) &&& c.mask
  let pos := c.pos + 1
  ((if c.capacity ≤ pos then some value else none),
   ⟨pos, c.capacity, value, c.mask⟩)

/-- Source `Cursor::clear`. -/
def Cursor.clear (c : Cursor) : Cursor := ⟨0, c.capacity, 0, c.mask⟩

/-- The mutable state of `MinimizerIterator` (cursor, window, emitted
count `size`); the byte slice and its traversal are threaded through the
scan functions below instead of being stored. -/
structure ScanState where
  cursor : Cursor
  window : MinimizerWindow
  size : Nat
  deriving Repr, DecidableEq

/-- The scanner state `MinimizerIterator::new` starts from. -/
def initState (meros : Meros) : ScanState :=
  ⟨Cursor.mkNew meros, MinimizerWindow.mkNew meros.window_size, 0⟩

/-- One iteration of the byte loop in `MinimizerIterator::next`
(src/mmscanner.rs lines 248-271): skip `\n`/`\r`, clear both cursor and
window on a non-ACGT byte, otherwise feed the 2-bit code through the
cursor and (when an l-mer completes) its candidate through the window;
on a window emission the hash `fmix64(minimizer ^ toggle_mask)` is paired
with the incremented `size`. -/
def stepByte (meros : Meros) (st : ScanState) (ch : Nat) :
    ScanState × Option (Nat × Nat) :=
  if ch = 10 ∨ ch = 13 then (st, none)
  else
    match char_to_value ch with
    | none => (⟨st.cursor.clear, st.window.clear, st.size⟩, none)
    | some code =>
      let cr := st.cursor.next_lmer code
      match cr.1 with
      | none => (⟨cr.2, st.window, st.size⟩, none)
      | some lmer =>
        let candidate := to_candidate_lmer meros lmer
        let wr := st.window.next candidate
        match wr.1 with
        | none => (⟨cr.2, wr.2, st.size⟩, none)
        | some minimizer =>
          (⟨cr.2, wr.2, st.size + 1⟩,
           some (st.size + 1, fmix64 (minimizer ^^^ meros.toggle_mask)))

/-- Driving the `MinimizerIterator` to exhaustion from a given state:
the list of `(size, hash)` pairs its successive `next` calls return. -/
def scanFrom (meros : Meros) : ScanState → List Nat → List (Nat × Nat)
  | _, [] => []
  | st, ch :: rest =>
    match stepByte meros st ch with
    | (st2, some e) => e :: scanFrom meros st2 rest
    | (st2, none) => scanFrom meros st2 rest

/-- All `(size, hash)` pairs the `MinimizerIterator` built by
`scan_sequence` emits for one byte sequence. -/
def scanEmits (meros : Meros) (s : List Nat) : List (Nat × Nat) :=
  scanFrom meros (initState meros) s

/-- The emitted hashes of one scan (second components of `scanEmits`). -/
def scanHashes (meros : Meros) (s : List Nat) : List Nat :=
  (scanEmits meros s).map Prod.snd

/-- Source `src/utils.rs` `OptionPair`: a single value or an ordered pair. -/
inductive OptionPair (T : Type) where
  | Single : T → OptionPair T
  | Pair : T → T → OptionPair T
  deriving Repr, DecidableEq

/-- Source `OptionPair::reduce`: fold the one or two values left to right. -/
def OptionPair.reduce {T U : Type} (p : OptionPair T) (init : U) (f : U → T → U) : U :=
  match p with
  | OptionPair.Single t => f init t
  | OptionPair.Pair t1 t2 => f (f init t1) t2

/-- Source `OptionPair::reduce_str`: reduce starting from the empty string,
inserting `sep` before each rendered value only when the accumulator is
non-empty. -/
def OptionPair.reduce_str {T : Type} (p : OptionPair T) (sep : String)
    (f : T → String) : String :=
  p.reduce "" (fun acc t => if acc.isEmpty then f t else acc ++ sep ++ f t)

/-- Source `OptionPair::from_slice`: a 2-element slice becomes `Pair`, a
1-element slice becomes `Single`, anything else hits `unreachable!`
(modelled as `none`). -/
def OptionPair.from_slice {T : Type} (slice : List T) : Option (OptionPair T) :=
  match slice with
  | [a, b] => some (OptionPair.Pair a b)
  | [a] => some (OptionPair.Single a)
  | _ => none

/-- Rust `str::ends_with` on character lists, as used by `trim_pair_info`. -/
def ends_with (l s : List Char) : Bool := List.isSuffixOf s l

/-- Source `src/reader.rs` `trim_pair_info`: ids of length at most 2 are
returned as is; otherwise a trailing `/1` or `/2` is cut off. -/
def trim_pair_info (id : List Char) : List Char :=
  let sz := id.length
  if sz ≤ 2 then id
  else if ends_with id ['/', '1'] || ends_with id ['/', '2'] then id.take (sz - 2)
  else id

/-- Complement of an upper-case nucleotide byte (A and T swap, C and G
swap); used to state the reverse-complement-of-a-sequence claims. -/
def byteComp (b : Nat) : Nat :=
  if b = 65 then 84 else if b = 84 then 65
  else if b = 67 then 71 else if b = 71 then 67 else b

/-- Reverse complement of a byte sequence: complement every base and
reverse the order. -/
def seqRevComp (s : List Nat) : List Nat := (s.map byteComp).reverse

/-- Upper-case A, C, G or T. -/
def isACGT (b : Nat) : Bool := b == 65 || b == 67 || b == 71 || b == 84

/-! Reference definitions used to state and prove the window claims:
the window is run over an abstract candidate stream `c : Nat → Nat`. -/

/-- State of a `MinimizerWindow` of capacity `w` after feeding it the
candidates `c 0, …, c (n-1)` in order. -/
def runW (c : Nat → Nat) (w : Nat) : Nat → MinimizerWindow
  | 0 => MinimizerWindow.mkNew w
  | n + 1 => ((runW c w n).next (c n)).2

/-- What `MinimizerWindow::next` returns at step `n` (feeding `c n`). -/
def emitAt (c : Nat → Nat) (w n : Nat) : Option Nat :=
  ((runW c w n).next (c n)).1

/-- Whether step `n` returns `Some`. -/
def emitsAt (c : Nat → Nat) (w n : Nat) : Bool := (emitAt c w n).isSome

/-- The values emitted during the first `n` steps, in order. -/
def emValues (c : Nat → Nat) (w : Nat) : Nat → List Nat
  | 0 => []
  | n + 1 => emValues c w n ++ (emitAt c w n).toList

/-- Earliest position of a minimum of `c` on the interval
`[lo, lo + len]` (ties resolved towards the smaller position). -/
def minPosFrom (c : Nat → Nat) (lo : Nat) : Nat → Nat
  | 0 => lo
  | len + 1 =>
    if c (lo + (len + 1)) < c (minPosFrom c lo len) then lo + (len + 1)
    else minPosFrom c lo len

/-- Earliest minimum position of the window of candidates the deque
retains after inserting candidate `j`: positions `[j - w, j]`. -/
def minPosEnd (c : Nat → Nat) (w j : Nat) : Nat := minPosFrom c (j - w) w

/-- The window minimum value at step `j`. -/
def minValEnd (c : Nat → Nat) (w j : Nat) : Nat := c (minPosEnd c w j)

/-- Position `p` dominates the rest of the window: `c p ≤ c q` for every
`q` with `p < q ≤ last`. -/
def stairOk (c : Nat → Nat) (p last : Nat) : Bool :=
  (List.range' (p + 1) (last - p)).all (fun q => decide (c p ≤ c q))

/-- The deque entry for position `p` of the stream. -/
def stairEntry (c : Nat → Nat) (p : Nat) : MinimizerData := ⟨p, c p⟩

/-- Membership predicate of the monotonic deque after `n` steps:
positions still inside the retained window that dominate all later
processed candidates. -/
def stairPred (c : Nat → Nat) (w n : Nat) (p : Nat) : Bool :=
  decide (n - 1 - w ≤ p) && stairOk c p (n - 1)

/-- The monotonic deque contents after `n` steps, front first. -/
def stairList (c : Nat → Nat) (w n : Nat) : List MinimizerData :=
  ((List.range n).filter (stairPred c w n)).map (stairEntry c)

/-! Value-level scan: the same byte loop with the ordinal/hash packaging
stripped off, used to factor the scan proofs. -/

/-- The byte step of `MinimizerIterator::next` on the `(cursor, window)`
pair alone, returning the raw window output. -/
def stepByteV (meros : Meros) (cw : Cursor × MinimizerWindow) (ch : Nat) :
    (Cursor × MinimizerWindow) × Option Nat :=
  if ch = 10 ∨ ch = 13 then (cw, none)
  else
    match char_to_value ch with
    | none => ((cw.1.clear, cw.2.clear), none)
    | some code =>
      let cr := cw.1.next_lmer code
      match cr.1 with
      | none => ((cr.2, cw.2), none)
      | some lmer =>
        let wr := cw.2.next (to_candidate_lmer meros lmer)
        ((cr.2, wr.2), wr.1)

/-- Raw minimizer values the scan emits from a given cursor/window state. -/
def scanValsFrom (meros : Meros) : Cursor × MinimizerWindow → List Nat → List Nat
  | _, [] => []
  | cw, ch :: rest =>
    match stepByteV meros cw ch with
    | (cw2, some v) => v :: scanValsFrom meros cw2 rest
    | (cw2, none) => scanValsFrom meros cw2 rest

/-- Raw minimizer values of a whole scan. -/
def scanVals (meros : Meros) (s : List Nat) : List Nat :=
  scanValsFrom meros (Cursor.mkNew meros, MinimizerWindow.mkNew meros.window_size) s

/-- Attaches 1-based ordinals (continuing from `k`) and the final hash
`fmix64 (v ^^^ tog)` to a list of raw minimizer values. -/
def ordPack (tog : Nat) : Nat → List Nat → List (Nat × Nat)
  | _, [] => []
  | k, v :: vs => (k + 1, fmix64 (v ^^^ tog)) :: ordPack tog (k + 1) vs

/-- 2-bit code of a byte (0 for non-ACGT bytes; only used on ACGT runs). -/
def codeOf (b : Nat) : Nat := (char_to_value b).getD 0

/-- Codes of a byte sequence. -/
def codesOf (s : List Nat) : List Nat := s.map codeOf

/-- The packed l-mer of length `l` starting at byte offset `j`. -/
def lmerAt (l : Nat) (s : List Nat) (j : Nat) : Nat :=
  ofCodes (((codesOf s).drop j).take l)

/-- The candidate l-mer the scan feeds to the window at window step `j`. -/
def candAt (meros : Meros) (s : List Nat) (j : Nat) : Nat :=
  to_candidate_lmer meros (lmerAt meros.l_mer s j)

/-- Number of l-mers (hence window steps) of an ACGT-only sequence. -/
def numCand (l : Nat) (s : List Nat) : Nat := s.length + 1 - l

/-- The cursor/window state after the scan has processed a byte list. -/
def runCW (meros : Meros) : Cursor × MinimizerWindow → List Nat → Cursor × MinimizerWindow
  | cw, [] => cw
  | cw, ch :: rest => runCW meros (stepByteV meros cw ch).1 rest

/-- The cursor's value accumulator as a fold over 2-bit codes, with the
spec-derived clamp `2 ^ (2 l) - 1`. -/
def cursorFold (l : Nat) (ds : List Nat) : Nat :=
  ds.foldl (fun v x => ((v <<< BITS_PER_CHAR) ||| x) &&& (2 ^ (2 * l) - 1)) 0

/-- The values emitted by window steps `a, a + 1, …, a + k - 1`. -/
def emValuesFrom (c : Nat → Nat) (w : Nat) : Nat → Nat → List Nat
  | _, 0 => []
  | a, k + 1 => (emitAt c w a).toList ++ emValuesFrom c w (a + 1) k

/-- The cursor/window pair the scan reaches after the first `m` bytes of an
ACGT-only sequence `s`. -/
def scanStateAt (meros : Meros) (s : List Nat) (m : Nat) : Cursor × MinimizerWindow :=
  (⟨m, meros.l_mer, cursorFold meros.l_mer ((codesOf s).take m), meros.mask⟩,
   runW (candAt meros s) meros.window_size (m + 1 - meros.l_mer))

/-- The canonical representation of an l-mer after spaced-seed masking
(when the mask is non-zero) but before the toggle XOR: the un-toggled
value whose `fmix64` image the iterator exposes. -/
def maskedCanonical (meros : Meros) (x : Nat) : Nat :=
  if 0 < meros.spaced_seed_mask then
    canonical_representation x meros.l_mer &&& meros.spaced_seed_mask
  else canonical_representation x meros.l_mer

/-! ## Theorems -/

/-- C1, counterexample: for `Meros` with `k_mer = 11`, `l_mer = 3` (window
size `11 - 3 + 1 = 9` per the spec) and the input `"ATCGATCGATC"` — the
first 11 bases of `"ATCGATCGATCG"` — the scan has emitted nothing, whereas
the claim asserts the first minimizer is emitted once 11 bases have been
consumed. -/
theorem c1_counterexample :
    scanEmits (Meros.create 11 3 0 0) [65, 84, 67, 71, 65, 84, 67, 71, 65, 84, 67] = [] := by
  decide

/-- C1, amended: with window size `k_mer - l_mer + 1 = 9`, scanning
`"ATCGATCGATCG"` emits nothing during the first 11 bases and emits its
first (and only) minimizer, with ordinal `size = 1`, while consuming the
12th base: the `count == capacity` test of `MinimizerWindow::next` first
succeeds on the 10th l-mer. -/
theorem c1_first_emission :
    scanEmits (Meros.create 11 3 0 0) [65, 84, 67, 71, 65, 84, 67, 71, 65, 84, 67] = [] ∧
    (scanEmits (Meros.create 11 3 0 0)
       [65, 84, 67, 71, 65, 84, 67, 71, 65, 84, 67, 71]).map Prod.fst = [1] := by
  decide

/-- C5, counterexample: for `k_mer = 4`, `l_mer = 3` (window capacity 2),
the ACGT sequence `"AAAAGG"` emits two hashes while its reverse complement
`"CCTTTT"` emits only one, so the two scans do not produce the same
multiset of hashes: a duplicated window minimum re-emits on handover in
one direction only. -/
theorem c5_counterexample :
    seqRevComp [65, 65, 65, 65, 71, 71] = [67, 67, 84, 84, 84, 84] ∧
    scanHashes (Meros.create 4 3 0 0) [65, 65, 65, 65, 71, 71] = [0, 0] ∧
    scanHashes (Meros.create 4 3 0 0) [67, 67, 84, 84, 84, 84] = [0] ∧
    (scanHashes (Meros.create 4 3 0 0) [65, 65, 65, 65, 71, 71] : Multiset Nat) ≠
      (scanHashes (Meros.create 4 3 0 0) [67, 67, 84, 84, 84, 84] : Multiset Nat) := by
  refine ⟨by decide, by decide, by decide, ?_⟩
  intro h
  have := congrArg Multiset.card h
  simp [scanHashes] at this
  revert this
  decide

/-- C6, counterexample: an ACGT run whose length equals `k_mer` emits no
minimizer: with `k_mer = 4`, `l_mer = 3` the 4-base record `"AAAA"` yields
zero emissions, whereas the claim asserts every maximal ACGT run of length
at least `k_mer` still emits. -/
theorem c6_counterexample :
    (Meros.create 4 3 0 0).k_mer = 4 ∧ ([65, 65, 65, 65] : List Nat).length = 4 ∧
    scanEmits (Meros.create 4 3 0 0) [65, 65, 65, 65] = [] := by
  decide

/-- C8, counterexample: the id `"/1"` ends with `"/1"`, yet
`trim_pair_info` returns it unchanged (its `sz <= 2` guard fires) instead
of removing the two-character suffix as the claim requires. -/
theorem c8_counterexample :
    ends_with ['/', '1'] ['/', '1'] = true ∧
    trim_pair_info ['/', '1'] = ['/', '1'] ∧ trim_pair_info ['/', '1'] ≠ [] := by
  decide

/-- C8, amended: for every id of length at least 3 that ends in `/1` or
`/2`, `trim_pair_info` drops the two-character suffix; every id of length
at most 2 — even `"/1"` or `"/2"` themselves — and every id without such a
suffix is returned unchanged. -/
theorem c8_trim_pair_info (id : List Char) :
    (3 ≤ id.length →
      (ends_with id ['/', '1'] = true ∨ ends_with id ['/', '2'] = true) →
      trim_pair_info id = id.take (id.length - 2)) ∧
    (id.length ≤ 2 → trim_pair_info id = id) ∧
    (ends_with id ['/', '1'] = false → ends_with id ['/', '2'] = false →
      trim_pair_info id = id) := by
  refine ⟨?_, ?_, ?_⟩
  · intro hlen hsuf
    have hgt : ¬ id.length ≤ 2 := by omega
    have hor : (ends_with id ['/', '1'] || ends_with id ['/', '2']) = true := by
      rcases hsuf with h | h <;> simp [h]
    simp [trim_pair_info, hgt, hor]
  · intro hle
    simp [trim_pair_info, hle]
  · intro h1 h2
    by_cases hle : id.length ≤ 2
    · simp [trim_pair_info, hle]
    · simp [trim_pair_info, hle, h1, h2]

/-- C8, witness for the amended theorem at the id `"ab/1"`. -/
theorem c8_trim_pair_info_witness :
    trim_pair_info ['a', 'b', '/', '1'] = ['a', 'b'] := by
  have h := (c8_trim_pair_info ['a', 'b', '/', '1']).1 (by decide) (Or.inl (by decide))
  simpa using h

/-- C9: `OptionPair::from_slice` maps every 1-element slice to `Single` of
its element and every 2-element slice to `Pair` of its elements in order;
every other arity reaches the `unreachable!` abort, modelled as `none`. -/
theorem c9_from_slice_arity {T : Type} :
    (∀ a : T, OptionPair.from_slice [a] = some (OptionPair.Single a)) ∧
    (∀ a b : T, OptionPair.from_slice [a, b] = some (OptionPair.Pair a b)) ∧
    (∀ l : List T, l.length ≠ 1 → l.length ≠ 2 → OptionPair.from_slice l = none) := by
  refine ⟨fun a => rfl, fun a b => rfl, fun l h1 h2 => ?_⟩
  match l with
  | [] => rfl
  | [a] => exact absurd rfl h1
  | [a, b] => exact absurd rfl h2
  | a :: b :: c :: rest => rfl

/-- C9, witness: the empty slice aborts and singleton slices build
`Single`. -/
theorem c9_from_slice_arity_witness :
    OptionPair.from_slice ([] : List Nat) = none ∧
    OptionPair.from_slice [(7 : Nat)] = some (OptionPair.Single 7) :=
  ⟨(c9_from_slice_arity.2.2 [] (by decide) (by decide)), c9_from_slice_arity.1 7⟩

/-- The first component of `popFrontWhile` is `dropWhile`. -/
theorem popFrontWhile_fst {α : Type} (p : α → Bool) (l : List α) :
    (popFrontWhile p l).1 = l.dropWhile p := by
  induction l with
  | nil => rfl
  | cons a rest ih =>
    by_cases h : p a <;> simp [popFrontWhile, List.dropWhile, h, ih]

/-- The popped-something flag of `popFrontWhile` is whether the head is
popped. -/
theorem popFrontWhile_snd {α : Type} (p : α → Bool) (a : α) (rest : List α) :
    (popFrontWhile p (a :: rest)).2 = p a := by
  by_cases h : p a <;> simp [popFrontWhile, h]

/-- One byte step of the full iterator is the value-level byte step plus
ordinal/hash packaging. -/
theorem stepByte_eq (meros : Meros) (st : ScanState) (ch : Nat) :
    stepByte meros st ch =
      (match stepByteV meros (st.cursor, st.window) ch with
       | (cw2, some v) =>
         (⟨cw2.1, cw2.2, st.size + 1⟩,
          some (st.size + 1, fmix64 (v ^^^ meros.toggle_mask)))
       | (cw2, none) => (⟨cw2.1, cw2.2, st.size⟩, none)) := by
  unfold stepByte stepByteV
  by_cases h10 : ch = 10 ∨ ch = 13
  · simp [h10]
  · simp only [if_neg h10]
    cases hc : char_to_value ch with
    | none => simp
    | some code =>
      simp only
      cases hcr : (st.cursor.next_lmer code).1 with
      | none => simp [hcr]
      | some lmer =>
        cases hwr : (st.window.next (to_candidate_lmer meros lmer)).1 with
        | none => simp [hcr, hwr]
        | some m => simp [hcr, hwr]

/-- The scan is the value-level scan with ordinal/hash packaging. -/
theorem scanFrom_eq (meros : Meros) (s : List Nat) : ∀ st : ScanState,
    scanFrom meros st s =
      ordPack meros.toggle_mask st.size
        (scanValsFrom meros (st.cursor, st.window) s) := by
  induction s with
  | nil => intro st; rfl
  | cons ch rest ih =>
    intro st
    rw [show scanFrom meros st (ch :: rest) =
          (match stepByte meros st ch with
           | (st2, some e) => e :: scanFrom meros st2 rest
           | (st2, none) => scanFrom meros st2 rest) from rfl]
    rw [stepByte_eq]
    rw [show scanValsFrom meros (st.cursor, st.window) (ch :: rest) =
          (match stepByteV meros (st.cursor, st.window) ch with
           | (cw2, some v) => v :: scanValsFrom meros cw2 rest
           | (cw2, none) => scanValsFrom meros cw2 rest) from rfl]
    cases hsv : stepByteV meros (st.cursor, st.window) ch with
    | mk cw2 ov =>
      cases ov with
      | some v =>
        exact congrArg
          (fun l => (st.size + 1, fmix64 (v ^^^ meros.toggle_mask)) :: l)
          (ih ⟨cw2.1, cw2.2, st.size + 1⟩)
      | none =>
        exact ih ⟨cw2.1, cw2.2, st.size⟩

/-- Whole-scan version of `scanFrom_eq`. -/
theorem scanEmits_eq (meros : Meros) (s : List Nat) :
    scanEmits meros s = ordPack meros.toggle_mask 0 (scanVals meros s) :=
  scanFrom_eq meros s (initState meros)

/-- Ordinals attached by `ordPack` are consecutive starting at `k + 1`. -/
theorem ordPack_map_fst (tog : Nat) (vs : List Nat) : ∀ k : Nat,
    (ordPack tog k vs).map Prod.fst = List.range' (k + 1) vs.length := by
  induction vs with
  | nil => intro k; rfl
  | cons v vs ih =>
    intro k
    simp [ordPack, List.range'_succ, ih]

/-- `ordPack` keeps the length of the value list. -/
theorem ordPack_length (tog : Nat) (vs : List Nat) : ∀ k : Nat,
    (ordPack tog k vs).length = vs.length := by
  induction vs with
  | nil => intro k; rfl
  | cons v vs ih => intro k; simp [ordPack, ih]

/-- The hashes attached by `ordPack` do not depend on the starting
ordinal. -/
theorem ordPack_map_snd (tog : Nat) (vs : List Nat) : ∀ k : Nat,
    (ordPack tog k vs).map Prod.snd = vs.map (fun v => fmix64 (v ^^^ tog)) := by
  induction vs with
  | nil => intro k; rfl
  | cons v vs ih => intro k; simp [ordPack, ih]

/-- C7: every `(ord, hash)` pair `MinimizerIterator::next` returns carries
as `ord` the 1-based count of emissions so far: the ordinals of a scan are
exactly `1, 2, …` in order. -/
theorem c7_ordinals (meros : Meros) (s : List Nat) :
    (scanEmits meros s).map Prod.fst =
      List.range' 1 (scanEmits meros s).length := by
  rw [scanEmits_eq, ordPack_map_fst, ordPack_length]

/-- `popFrontWhile` pops nothing when the predicate is constantly false. -/
theorem popFrontWhile_snd_false {α : Type} (p : α → Bool)
    (hp : ∀ a, p a = false) (l : List α) : (popFrontWhile p l).2 = false := by
  cases l with
  | nil => rfl
  | cons a rest => simp [popFrontWhile, hp a]

/-- `MinimizerWindow::next` keeps the capacity. -/
theorem window_next_capacity (w : MinimizerWindow) (cand : Nat) :
    ((w.next cand).2).capacity = w.capacity := by
  by_cases h : w.capacity = 1 <;> simp [MinimizerWindow.next, h]

/-- Capacity-1 fast path of `MinimizerWindow::next`. -/
theorem window_next_cap1 (w : MinimizerWindow) (cand : Nat)
    (h : w.capacity = 1) : w.next cand = (some cand, w) := by
  simp [MinimizerWindow.next, h]

/-- Away from the fast path, `MinimizerWindow::next` bumps `count`. -/
theorem window_next_count (w : MinimizerWindow) (cand : Nat)
    (h : w.capacity ≠ 1) : ((w.next cand).2).count = w.count + 1 := by
  simp [MinimizerWindow.next, h]

/-- Before the window has filled, `MinimizerWindow::next` emits nothing. -/
theorem window_next_no_emit (w : MinimizerWindow) (cand : Nat)
    (h1 : w.capacity ≠ 1) (h2 : w.count < w.capacity) :
    (w.next cand).1 = none := by
  have hle : decide (w.capacity ≤ w.count) = false := by
    simp [Nat.not_le.mpr h2]
  have heq : decide (w.count = w.capacity) = false := by
    simp [Nat.ne_of_lt h2]
  have hfr := popFrontWhile_snd_false (fun _ : MinimizerData => false) (fun _ => rfl)
    (popBackWhile (fun d => decide (cand < d.candidate_lmer)) w.queue ++
      [(⟨w.count, cand⟩ : MinimizerData)])
  simp [MinimizerWindow.next, h1, hle, heq, hfr]

/-- At the instant `count == capacity` the window emits. -/
theorem window_next_emit_fill (w : MinimizerWindow) (cand : Nat)
    (h1 : w.capacity ≠ 1) (h2 : w.count = w.capacity) :
    ((w.next cand).1).isSome = true := by
  have heq : decide (w.count = w.capacity) = true := by simp [h2]
  have hpdata : (decide (w.capacity ≤ w.count) &&
      decide ((⟨w.count, cand⟩ : MinimizerData).pos < w.count - w.capacity)) = false := by
    simp [h2]
  have hdrop : (List.dropWhile
      (fun d : MinimizerData =>
        decide (w.capacity ≤ w.count) && decide (d.pos < w.count - w.capacity))
      (popBackWhile (fun d => decide (cand < d.candidate_lmer)) w.queue ++
        [(⟨w.count, cand⟩ : MinimizerData)])) ≠ [] := by
    rw [List.dropWhile_append]
    split
    · simp only [List.dropWhile, hpdata]
      simp
    · simp
  obtain ⟨d, l', hd⟩ := List.exists_cons_of_ne_nil hdrop
  simp [MinimizerWindow.next, h1, heq, popFrontWhile_fst, hd]

/-- `Cursor::next_lmer` keeps the capacity. -/
theorem cursor_next_snd_capacity (c : Cursor) (x : Nat) :
    (c.next_lmer x).2.capacity = c.capacity := rfl

/-- `Cursor::next_lmer` keeps the mask. -/
theorem cursor_next_snd_mask (c : Cursor) (x : Nat) :
    (c.next_lmer x).2.mask = c.mask := rfl

/-- `Cursor::next_lmer` bumps the position. -/
theorem cursor_next_snd_pos (c : Cursor) (x : Nat) :
    (c.next_lmer x).2.pos = c.pos + 1 := rfl

/-- `Cursor::next_lmer` yields the clamped value exactly once the updated
position reaches the capacity. -/
theorem cursor_next_fst (c : Cursor) (x : Nat) :
    (c.next_lmer x).1 =
      (if c.capacity ≤ c.pos + 1
       then some (((c.value <<< BITS_PER_CHAR) ||| x) &&& c.mask) else none) := rfl

/-- `Cursor::next_lmer` and the clears keep capacity and mask; the
value-level byte step therefore keeps the three configuration fields. -/
theorem stepByteV_config (meros : Meros) (cw : Cursor × MinimizerWindow) (ch : Nat) :
    ((stepByteV meros cw ch).1.1.capacity = cw.1.capacity ∧
     (stepByteV meros cw ch).1.1.mask = cw.1.mask ∧
     (stepByteV meros cw ch).1.2.capacity = cw.2.capacity) := by
  by_cases h10 : ch = 10 ∨ ch = 13
  · simp [stepByteV, h10]
  · cases hc : char_to_value ch with
    | none => simp [stepByteV, if_neg h10, hc, Cursor.clear, MinimizerWindow.clear]
    | some code =>
      cases hcr : (cw.1.next_lmer code).1 with
      | none =>
        simp [stepByteV, if_neg h10, hc, hcr, cursor_next_snd_capacity, cursor_next_snd_mask]
      | some lmer =>
        simp [stepByteV, if_neg h10, hc, hcr, window_next_capacity,
          cursor_next_snd_capacity, cursor_next_snd_mask]

/-- `runCW` keeps the three configuration fields. -/
theorem runCW_config (meros : Meros) :
    ∀ (s : List Nat) (cw : Cursor × MinimizerWindow),
      ((runCW meros cw s).1.capacity = cw.1.capacity ∧
       (runCW meros cw s).1.mask = cw.1.mask ∧
       (runCW meros cw s).2.capacity = cw.2.capacity) := by
  intro s
  induction s with
  | nil => intro cw; exact ⟨rfl, rfl, rfl⟩
  | cons ch rest ih =>
    intro cw
    have h1 := stepByteV_config meros cw ch
    have h2 := ih (stepByteV meros cw ch).1
    exact ⟨h1.1 ▸ h2.1, h1.2.1 ▸ h2.2.1, h1.2.2 ▸ h2.2.2⟩

/-- `scanValsFrom` distributes over append, threading the state. -/
theorem scanValsFrom_append (meros : Meros) :
    ∀ (s1 s2 : List Nat) (cw : Cursor × MinimizerWindow),
      scanValsFrom meros cw (s1 ++ s2) =
        scanValsFrom meros cw s1 ++ scanValsFrom meros (runCW meros cw s1) s2 := by
  intro s1
  induction s1 with
  | nil => intro s2 cw; rfl
  | cons ch rest ih =>
    intro s2 cw
    show scanValsFrom meros cw (ch :: (rest ++ s2)) = _
    rw [show scanValsFrom meros cw (ch :: (rest ++ s2)) =
          (match stepByteV meros cw ch with
           | (cw2, some v) => v :: scanValsFrom meros cw2 (rest ++ s2)
           | (cw2, none) => scanValsFrom meros cw2 (rest ++ s2)) from rfl]
    rw [show scanValsFrom meros cw (ch :: rest) =
          (match stepByteV meros cw ch with
           | (cw2, some v) => v :: scanValsFrom meros cw2 rest
           | (cw2, none) => scanValsFrom meros cw2 rest) from rfl]
    rw [show runCW meros cw (ch :: rest) = runCW meros (stepByteV meros cw ch).1 rest from rfl]
    cases hsv : stepByteV meros cw ch with
    | mk cw2 ov =>
      cases ov with
      | some v => simp [ih s2 cw2]
      | none => simp [ih s2 cw2]

/-- A non-ACGT, non-newline byte resets the scanner state. -/
theorem stepByteV_clear (meros : Meros) (cw : Cursor × MinimizerWindow) (b : Nat)
    (hb : char_to_value b = none) (h10 : b ≠ 10) (h13 : b ≠ 13) :
    stepByteV meros cw b = ((cw.1.clear, cw.2.clear), none) := by
  simp [stepByteV, hb, h10, h13]

/-- Clearing a state whose configuration fields are the initial ones
recreates the initial state. -/
theorem cleared_eq_init (meros : Meros) (cw : Cursor × MinimizerWindow)
    (h1 : cw.1.capacity = meros.l_mer) (h2 : cw.1.mask = meros.mask)
    (h3 : cw.2.capacity = meros.window_size) :
    (cw.1.clear, cw.2.clear) =
      (Cursor.mkNew meros, MinimizerWindow.mkNew meros.window_size) := by
  simp [Cursor.clear, MinimizerWindow.clear, Cursor.mkNew, MinimizerWindow.mkNew, h1, h2, h3]

/-- Splitting a scan at a non-ACGT byte at the raw-value level. -/
theorem scanVals_split (meros : Meros) (s1 s2 : List Nat) (b : Nat)
    (hb : char_to_value b = none) (h10 : b ≠ 10) (h13 : b ≠ 13) :
    scanVals meros (s1 ++ b :: s2) = scanVals meros s1 ++ scanVals meros s2 := by
  unfold scanVals
  rw [scanValsFrom_append]
  congr 1
  set cw := runCW meros (Cursor.mkNew meros, MinimizerWindow.mkNew meros.window_size) s1
    with hcw
  have hcfg := runCW_config meros s1 (Cursor.mkNew meros, MinimizerWindow.mkNew meros.window_size)
  rw [show scanValsFrom meros cw (b :: s2) =
        (match stepByteV meros cw b with
         | (cw2, some v) => v :: scanValsFrom meros cw2 s2
         | (cw2, none) => scanValsFrom meros cw2 s2) from rfl]
  rw [stepByteV_clear meros cw b hb h10 h13]
  rw [cleared_eq_init meros cw (by exact hcfg.1) (by exact hcfg.2.1) (by exact hcfg.2.2)]

/-- An ACGT byte has a code, is not a newline, and its code is below 4. -/
theorem acgt_byte (b : Nat) (h : isACGT b = true) :
    char_to_value b = some (codeOf b) ∧ b ≠ 10 ∧ b ≠ 13 ∧ codeOf b < 4 := by
  simp only [isACGT, Bool.or_eq_true, beq_iff_eq] at h
  rcases h with ((rfl | rfl) | rfl) | rfl <;> exact ⟨rfl, by decide, by decide, by decide⟩

/-- Value-level byte step on an ACGT byte whose l-mer is still growing. -/
theorem stepByteV_acgt_none (meros : Meros) (cw : Cursor × MinimizerWindow)
    (b code : Nat) (hb : char_to_value b = some code) (h10 : b ≠ 10) (h13 : b ≠ 13)
    (hcr : (cw.1.next_lmer code).1 = none) :
    stepByteV meros cw b = (((cw.1.next_lmer code).2, cw.2), none) := by
  simp [stepByteV, h10, h13, hb, hcr]

/-- Value-level byte step on an ACGT byte that completes an l-mer. -/
theorem stepByteV_acgt_some (meros : Meros) (cw : Cursor × MinimizerWindow)
    (b code lmer : Nat) (hb : char_to_value b = some code) (h10 : b ≠ 10) (h13 : b ≠ 13)
    (hcr : (cw.1.next_lmer code).1 = some lmer) :
    stepByteV meros cw b =
      (((cw.1.next_lmer code).2, (cw.2.next (to_candidate_lmer meros lmer)).2),
       (cw.2.next (to_candidate_lmer meros lmer)).1) := by
  simp [stepByteV, h10, h13, hb, hcr]

/-- State shape after scanning an ACGT-only byte list: the cursor position
advances one per byte, the configuration is preserved, and (off the
capacity-1 fast path) the window's `count` is the number of completed
l-mers. -/
theorem runCW_acgt (meros : Meros) :
    ∀ (s : List Nat) (cw : Cursor × MinimizerWindow) (m : Nat),
      (∀ b ∈ s, isACGT b = true) →
      cw.1.pos = m → cw.1.capacity = meros.l_mer →
      cw.2.capacity = meros.window_size →
      (meros.window_size = 1 ∨ cw.2.count = m + 1 - meros.l_mer) →
      ((runCW meros cw s).1.pos = m + s.length ∧
       (runCW meros cw s).1.capacity = meros.l_mer ∧
       (runCW meros cw s).2.capacity = meros.window_size ∧
       (meros.window_size = 1 ∨
        (runCW meros cw s).2.count = m + s.length + 1 - meros.l_mer)) := by
  intro s
  induction s with
  | nil =>
    intro cw m _ h1 h2 h3 h4
    exact ⟨by simpa using h1, h2, h3, by simpa using h4⟩
  | cons b rest ih =>
    intro cw m hall h1 h2 h3 h4
    obtain ⟨hb, h10, h13, _⟩ := acgt_byte b (hall b (by simp))
    have hrest : ∀ x ∈ rest, isACGT x = true := fun x hx => hall x (by simp [hx])
    have hrun : runCW meros cw (b :: rest) = runCW meros (stepByteV meros cw b).1 rest := rfl
    cases hcr : (cw.1.next_lmer (codeOf b)).1 with
    | none =>
      have hpos2 : (cw.1.next_lmer (codeOf b)).2.pos = m + 1 := by
        rw [cursor_next_snd_pos, h1]
      have hlt : ¬ (cw.1.capacity ≤ cw.1.pos + 1) := by
        intro hc
        rw [cursor_next_fst, if_pos hc] at hcr
        exact Option.noConfusion hcr
      have hml : m + 1 < meros.l_mer := by
        rw [h2, h1] at hlt; omega
      rw [hrun, stepByteV_acgt_none meros cw b (codeOf b) hb h10 h13 hcr]
      have := ih ((cw.1.next_lmer (codeOf b)).2, cw.2) (m + 1) hrest hpos2
        (by rw [cursor_next_snd_capacity, h2]) h3
        (by rcases h4 with h4 | h4
            · exact Or.inl h4
            · exact Or.inr (by rw [h4]; omega))
      simpa [Nat.add_comm, Nat.add_assoc, Nat.add_left_comm] using this
    | some lmer =>
      have hpos2 : (cw.1.next_lmer (codeOf b)).2.pos = m + 1 := by
        rw [cursor_next_snd_pos, h1]
      have hge : cw.1.capacity ≤ cw.1.pos + 1 := by
        by_contra hc
        rw [cursor_next_fst, if_neg hc] at hcr
        exact Option.noConfusion hcr
      have hml : meros.l_mer ≤ m + 1 := by rw [h2, h1] at hge; exact hge
      rw [hrun, stepByteV_acgt_some meros cw b (codeOf b) lmer hb h10 h13 hcr]
      have hcnt : meros.window_size = 1 ∨
          ((cw.2.next (to_candidate_lmer meros lmer)).2).count = (m + 1) + 1 - meros.l_mer := by
        rcases h4 with h4 | h4
        · exact Or.inl h4
        · by_cases hw1 : meros.window_size = 1
          · exact Or.inl hw1
          · refine Or.inr ?_
            rw [window_next_count _ _ (by rw [h3]; exact hw1), h4]
            omega
      have := ih ((cw.1.next_lmer (codeOf b)).2, (cw.2.next (to_candidate_lmer meros lmer)).2)
        (m + 1) hrest hpos2 (by rw [cursor_next_snd_capacity, h2])
        (by rw [window_next_capacity, h3]) hcnt
      simpa [Nat.add_comm, Nat.add_assoc, Nat.add_left_comm] using this

/-- An ACGT-only record of length at least `k_mer + 1` emits at least one
minimizer: the window fills while the record is still being consumed. -/
theorem scanVals_ne_nil (meros : Meros) (s : List Nat)
    (hl : 1 ≤ meros.l_mer) (hlk : meros.l_mer ≤ meros.k_mer)
    (hall : ∀ b ∈ s, isACGT b = true) (hlen : meros.k_mer + 1 ≤ s.length) :
    scanVals meros s ≠ [] := by
  have hk : meros.k_mer ≤ s.length := by omega
  have hdropne : s.drop meros.k_mer ≠ [] := by
    intro h
    have := congrArg List.length h
    simp at this
    omega
  obtain ⟨b, rest, hdrop⟩ := List.exists_cons_of_ne_nil hdropne
  have hsplit : s.take meros.k_mer ++ b :: rest = s := by
    rw [← hdrop, List.take_append_drop]
  have hbmem : b ∈ s := by
    have : b ∈ s.take meros.k_mer ++ b :: rest := by simp
    rwa [hsplit] at this
  obtain ⟨hb, h10, h13, _⟩ := acgt_byte b (hall b hbmem)
  unfold scanVals
  rw [← hsplit, scanValsFrom_append]
  set cw0 : Cursor × MinimizerWindow :=
    (Cursor.mkNew meros, MinimizerWindow.mkNew meros.window_size) with hcw0
  have hst := runCW_acgt meros (s.take meros.k_mer) cw0 0
    (fun x hx => hall x (List.mem_of_mem_take hx)) rfl rfl rfl
    (Or.inr (by simp [hcw0, MinimizerWindow.mkNew]; omega))
  set cwk := runCW meros cw0 (s.take meros.k_mer) with hcwk
  have hlentake : (s.take meros.k_mer).length = meros.k_mer := by
    simp [List.length_take]; omega
  have hpos : cwk.1.pos = meros.k_mer := by
    rw [hst.1, hlentake]
    omega
  have hcap : cwk.1.capacity = meros.l_mer := hst.2.1
  have hwcap : cwk.2.capacity = meros.window_size := hst.2.2.1
  have hcr : (cwk.1.next_lmer (codeOf b)).1 =
      some (((cwk.1.value <<< BITS_PER_CHAR) ||| codeOf b) &&& cwk.1.mask) := by
    rw [cursor_next_fst, if_pos (by rw [hcap, hpos]; omega)]
  set lm := ((cwk.1.value <<< BITS_PER_CHAR) ||| codeOf b) &&& cwk.1.mask with hlm
  have hemit : ((cwk.2.next (to_candidate_lmer meros lm)).1).isSome = true := by
    by_cases hw1 : meros.window_size = 1
    · rw [window_next_cap1 _ _ (by rw [hwcap]; exact hw1)]
      rfl
    · rcases hst.2.2.2 with h | hcnt
      · exact absurd h hw1
      · refine window_next_emit_fill _ _ (by rw [hwcap]; exact hw1) ?_
        rw [hcnt, hlentake, hwcap]
        unfold Meros.window_size
        omega
  obtain ⟨v, hv⟩ := Option.isSome_iff_exists.mp hemit
  rw [show scanValsFrom meros cwk (b :: rest) =
        (match stepByteV meros cwk b with
         | (cw2, some x) => x :: scanValsFrom meros cw2 rest
         | (cw2, none) => scanValsFrom meros cw2 rest) from rfl]
  rw [stepByteV_acgt_some meros cwk b (codeOf b) lm hb h10 h13 hcr, hv]
  simp

/-- A record shorter than `k_mer` never lets the window fill, so nothing
is emitted (value level, with the window-count bound as invariant). -/
theorem scanValsFrom_short (meros : Meros) (hl : 1 ≤ meros.l_mer)
    (hlk : meros.l_mer ≤ meros.k_mer) :
    ∀ (r : List Nat) (cw : Cursor × MinimizerWindow),
      cw.1.capacity = meros.l_mer → cw.2.capacity = meros.window_size →
      (cw.2.count = 0 ∨ cw.2.count + meros.l_mer ≤ cw.1.pos + 1) →
      cw.1.pos + r.length < meros.k_mer →
      scanValsFrom meros cw r = [] := by
  intro r
  induction r with
  | nil => intro cw _ _ _ _; rfl
  | cons ch rest ih =>
    intro cw h1 h2 h3 hlen
    rw [show scanValsFrom meros cw (ch :: rest) =
          (match stepByteV meros cw ch with
           | (cw2, some x) => x :: scanValsFrom meros cw2 rest
           | (cw2, none) => scanValsFrom meros cw2 rest) from rfl]
    by_cases h10 : ch = 10 ∨ ch = 13
    · rw [show stepByteV meros cw ch = (cw, none) from by simp [stepByteV, h10]]
      exact ih cw h1 h2 h3 (by simp at hlen; omega)
    · have h10' : ch ≠ 10 := fun h => h10 (Or.inl h)
      have h13' : ch ≠ 13 := fun h => h10 (Or.inr h)
      cases hc : char_to_value ch with
      | none =>
        rw [stepByteV_clear meros cw ch hc h10' h13']
        refine ih _ (show cw.1.capacity = meros.l_mer from h1)
          (show cw.2.capacity = meros.window_size from h2) (Or.inl rfl) ?_
        show (cw.1.clear).pos + rest.length < meros.k_mer
        simp [Cursor.clear] at hlen ⊢
        omega
      | some code =>
        cases hcr : (cw.1.next_lmer code).1 with
        | none =>
          rw [stepByteV_acgt_none meros cw ch code hc h10' h13' hcr]
          refine ih _ (by rw [cursor_next_snd_capacity, h1]) h2 ?_ ?_
          · rcases h3 with h3 | h3
            · exact Or.inl h3
            · refine Or.inr ?_
              show cw.2.count + meros.l_mer ≤ (cw.1.next_lmer code).2.pos + 1
              rw [cursor_next_snd_pos]
              omega
          · show (cw.1.next_lmer code).2.pos + rest.length < meros.k_mer
            rw [cursor_next_snd_pos]
            simp at hlen
            omega
        | some lmer =>
          have hge : cw.1.capacity ≤ cw.1.pos + 1 := by
            by_contra hcn
            rw [cursor_next_fst, if_neg hcn] at hcr
            exact Option.noConfusion hcr
          have hml : meros.l_mer ≤ cw.1.pos + 1 := by rw [h1] at hge; exact hge
          have hpos : cw.1.pos + 1 ≤ meros.k_mer - 1 := by
            simp at hlen
            omega
          have hkl : meros.l_mer < meros.k_mer := by omega
          have hw1 : cw.2.capacity ≠ 1 := by
            rw [h2]
            unfold Meros.window_size
            omega
          have hcnt : cw.2.count < cw.2.capacity := by
            rw [h2]
            unfold Meros.window_size
            rcases h3 with h3 | h3
            · omega
            · omega
          rw [stepByteV_acgt_some meros cw ch code lmer hc h10' h13' hcr]
          rw [window_next_no_emit _ _ hw1 hcnt]
          refine ih _ (by rw [cursor_next_snd_capacity, h1])
            (by rw [window_next_capacity, h2]) ?_ ?_
          · refine Or.inr ?_
            show ((cw.2.next (to_candidate_lmer meros lmer)).2).count + meros.l_mer ≤
              (cw.1.next_lmer code).2.pos + 1
            rw [window_next_count _ _ hw1, cursor_next_snd_pos]
            rcases h3 with h3 | h3
            · rw [h3]; omega
            · omega
          · show (cw.1.next_lmer code).2.pos + rest.length < meros.k_mer
            rw [cursor_next_snd_pos]
            simp at hlen
            omega

/-- The hashes of a scan are the raw minimizer values, toggled and mixed. -/
theorem scanHashes_eq (meros : Meros) (s : List Nat) :
    scanHashes meros s =
      (scanVals meros s).map (fun v => fmix64 (v ^^^ meros.toggle_mask)) := by
  unfold scanHashes
  rw [scanEmits_eq, ordPack_map_snd]

/-- C6, amended: (i) a non-ACGT, non-newline byte splits the scan — the
emitted hashes of `s1 ++ [b] ++ s2` are exactly those of `s1` followed by
those of `s2`, so no minimizer derives from an l-mer spanning the byte;
(ii) an ACGT-only record of length at least `k_mer + 1` (not `k_mer`: see
the counterexample) emits at least one minimizer; (iii) a record shorter
than `k_mer` emits zero minimizers and raises no error. -/
theorem c6_ambiguous_handling (meros : Meros) :
    (∀ (s1 s2 : List Nat) (b : Nat), char_to_value b = none → b ≠ 10 → b ≠ 13 →
       scanHashes meros (s1 ++ b :: s2) = scanHashes meros s1 ++ scanHashes meros s2) ∧
    (∀ s : List Nat, 1 ≤ meros.l_mer → meros.l_mer ≤ meros.k_mer →
       (∀ b ∈ s, isACGT b = true) → meros.k_mer + 1 ≤ s.length →
       scanEmits meros s ≠ []) ∧
    (∀ s : List Nat, 1 ≤ meros.l_mer → meros.l_mer ≤ meros.k_mer →
       s.length < meros.k_mer → scanEmits meros s = []) := by
  refine ⟨?_, ?_, ?_⟩
  · intro s1 s2 b hb h10 h13
    rw [scanHashes_eq, scanHashes_eq, scanHashes_eq,
      scanVals_split meros s1 s2 b hb h10 h13, List.map_append]
  · intro s hl hlk hall hlen h
    apply scanVals_ne_nil meros s hl hlk hall hlen
    have := congrArg List.length h
    rw [scanEmits_eq, ordPack_length] at this
    simpa using List.length_eq_zero.mp (by simpa using this)
  · intro s hl hlk hlen
    have hvals : scanVals meros s = [] := by
      apply scanValsFrom_short meros hl hlk s
      · rfl
      · rfl
      · exact Or.inl rfl
      · show (Cursor.mkNew meros).pos + s.length < meros.k_mer
        simpa [Cursor.mkNew] using hlen
    rw [scanEmits_eq, hvals]
    rfl

/-- C6, witness: with `k_mer = 4`, `l_mer = 3`, an `N` (78) splits
`"AAAAA" ++ N ++ "AAAAA"` into two independently scanned halves, a 5-base
ACGT run emits, and a 3-base record emits nothing. -/
theorem c6_ambiguous_handling_witness :
    scanHashes (Meros.create 4 3 0 0) ([65, 65, 65, 65, 65] ++ 78 :: [65, 65, 65, 65, 65]) =
      scanHashes (Meros.create 4 3 0 0) [65, 65, 65, 65, 65] ++
        scanHashes (Meros.create 4 3 0 0) [65, 65, 65, 65, 65] ∧
    scanEmits (Meros.create 4 3 0 0) [65, 65, 65, 65, 65] ≠ [] ∧
    scanEmits (Meros.create 4 3 0 0) [65, 65, 65] = [] :=
  ⟨(c6_ambiguous_handling (Meros.create 4 3 0 0)).1 _ _ 78 rfl (by decide) (by decide),
   (c6_ambiguous_handling (Meros.create 4 3 0 0)).2.1 _ (by decide) (by decide)
     (by decide) (by decide),
   (c6_ambiguous_handling (Meros.create 4 3 0 0)).2.2 _ (by decide) (by decide) (by decide)⟩

/-- Everything `popBackWhile` keeps was in the deque. -/
theorem popBackWhile_subset {α : Type} (p : α → Bool) (q : List α) :
    ∀ d ∈ popBackWhile p q, d ∈ q := by
  intro d hd
  unfold popBackWhile at hd
  rw [List.mem_reverse] at hd
  have hsub := (List.dropWhile_sublist p).subset hd
  rwa [List.mem_reverse] at hsub

/-- Every entry of the deque after `MinimizerWindow::next` was already in
the deque or is the entry just inserted. -/
theorem window_next_queue_mem (w : MinimizerWindow) (cand : Nat) :
    ∀ d ∈ ((w.next cand).2).queue,
      d ∈ w.queue ∨ d = (⟨w.count, cand⟩ : MinimizerData) := by
  intro d hd
  by_cases h1 : w.capacity = 1
  · rw [window_next_cap1 w cand h1] at hd
    exact Or.inl hd
  · simp only [MinimizerWindow.next, if_neg h1] at hd
    rw [popFrontWhile_fst] at hd
    have hsub := (List.dropWhile_sublist _).subset hd
    rcases List.mem_append.mp hsub with h | h
    · exact Or.inl (popBackWhile_subset _ _ d h)
    · simp at h
      exact Or.inr h

/-- Every value `MinimizerWindow::next` emits is the candidate just fed in
or the stored candidate of an entry that was already in the deque. -/
theorem window_next_emit_mem (w : MinimizerWindow) (cand v : Nat)
    (hv : (w.next cand).1 = some v) :
    (∃ d ∈ w.queue, v = d.candidate_lmer) ∨ v = cand := by
  by_cases h1 : w.capacity = 1
  · rw [window_next_cap1 w cand h1] at hv
    exact Or.inr (Option.some.inj hv).symm
  · simp only [MinimizerWindow.next, if_neg h1] at hv
    split at hv
    · rw [Option.map_eq_some'] at hv
      obtain ⟨d, hd, hdv⟩ := hv
      have hmem : d ∈ (popFrontWhile
          (fun e => decide (w.capacity ≤ w.count) && decide (e.pos < w.count - w.capacity))
          (popBackWhile (fun e => decide (cand < e.candidate_lmer)) w.queue ++
            [(⟨w.count, cand⟩ : MinimizerData)])).1 := by
        cases hq : (popFrontWhile
            (fun e => decide (w.capacity ≤ w.count) && decide (e.pos < w.count - w.capacity))
            (popBackWhile (fun e => decide (cand < e.candidate_lmer)) w.queue ++
              [(⟨w.count, cand⟩ : MinimizerData)])).1 with
        | nil =>
          rw [hq] at hd
          simp at hd
        | cons a t =>
          rw [hq] at hd
          simp at hd
          subst hd
          simp
      rw [popFrontWhile_fst] at hmem
      have hsub := (List.dropWhile_sublist _).subset hmem
      rcases List.mem_append.mp hsub with h | h
      · exact Or.inl ⟨d, popBackWhile_subset _ _ d h, hdv.symm⟩
      · simp at h
        subst h
        exact Or.inr hdv.symm
    · exact Option.noConfusion hv

/-- Every raw value a scan emits is `to_candidate_lmer` of some l-mer,
provided every deque entry of the starting state already is. -/
theorem scanValsFrom_image (meros : Meros) :
    ∀ (s : List Nat) (cw : Cursor × MinimizerWindow),
      (∀ d ∈ cw.2.queue, ∃ x, d.candidate_lmer = to_candidate_lmer meros x) →
      ∀ v ∈ scanValsFrom meros cw s, ∃ x, v = to_candidate_lmer meros x := by
  intro s
  induction s with
  | nil =>
    intro cw _ v hv
    simp [scanValsFrom] at hv
  | cons ch rest ih =>
    intro cw hinv v hv
    rw [show scanValsFrom meros cw (ch :: rest) =
          (match stepByteV meros cw ch with
           | (cw2, some x) => x :: scanValsFrom meros cw2 rest
           | (cw2, none) => scanValsFrom meros cw2 rest) from rfl] at hv
    by_cases h10 : ch = 10 ∨ ch = 13
    · rw [show stepByteV meros cw ch = (cw, none) from by simp [stepByteV, h10]] at hv
      exact ih cw hinv v hv
    · have h10' : ch ≠ 10 := fun h => h10 (Or.inl h)
      have h13' : ch ≠ 13 := fun h => h10 (Or.inr h)
      cases hc : char_to_value ch with
      | none =>
        rw [stepByteV_clear meros cw ch hc h10' h13'] at hv
        refine ih _ ?_ v hv
        intro d hd
        simp [MinimizerWindow.clear] at hd
      | some code =>
        cases hcr : (cw.1.next_lmer code).1 with
        | none =>
          rw [stepByteV_acgt_none meros cw ch code hc h10' h13' hcr] at hv
          exact ih ((cw.1.next_lmer code).2, cw.2) hinv v hv
        | some lmer =>
          rw [stepByteV_acgt_some meros cw ch code lmer hc h10' h13' hcr] at hv
          have hinv2 : ∀ d ∈ ((cw.2.next (to_candidate_lmer meros lmer)).2).queue,
              ∃ x, d.candidate_lmer = to_candidate_lmer meros x := by
            intro d hd
            rcases window_next_queue_mem cw.2 (to_candidate_lmer meros lmer) d hd with h | h
            · exact hinv d h
            · exact ⟨lmer, by rw [h]⟩
          cases hw : (cw.2.next (to_candidate_lmer meros lmer)).1 with
          | none =>
            rw [hw] at hv
            exact ih _ hinv2 v hv
          | some m =>
            rw [hw] at hv
            rcases List.mem_cons.mp hv with h | h
            · subst h
              rcases window_next_emit_mem cw.2 (to_candidate_lmer meros lmer) v hw with
                ⟨d, hd, hdv⟩ | h
              · obtain ⟨x, hx⟩ := hinv d hd
                exact ⟨x, by rw [hdv, hx]⟩
              · exact ⟨lmer, h⟩
            · exact ih _ hinv2 v h

/-- C4: every hash the iterator emits is `fmix64(minimizer ^ toggle_mask)`
for a minimizer of the form `to_candidate_lmer(lmer)`, hence also
`fmix64` of the canonical (un-toggled) representation of that l-mer,
masked by the spaced-seed mask when it is non-zero: the toggle applied
during candidate construction is undone before hashing. -/
theorem c4_hash_formula (meros : Meros) (s : List Nat) (e : Nat × Nat)
    (he : e ∈ scanEmits meros s) :
    ∃ x, e.2 = fmix64 (to_candidate_lmer meros x ^^^ meros.toggle_mask) ∧
         e.2 = fmix64 (maskedCanonical meros x) := by
  have h2 : e.2 ∈ (scanEmits meros s).map Prod.snd := List.mem_map_of_mem _ he
  rw [scanEmits_eq, ordPack_map_snd] at h2
  obtain ⟨v, hv, hev⟩ := List.mem_map.mp h2
  obtain ⟨x, hx⟩ := scanValsFrom_image meros s _
    (by intro d hd; simp [MinimizerWindow.mkNew] at hd) v hv
  refine ⟨x, ?_, ?_⟩
  · rw [← hev, hx]
  · rw [← hev, hx,
      show to_candidate_lmer meros x = maskedCanonical meros x ^^^ meros.toggle_mask from rfl,
      Nat.xor_cancel_right]

/-- C4, witness: the single emission of scanning `"AAAAA"` with `k_mer =
4`, `l_mer = 3` carries hash `fmix64(canonical(AAA)) = fmix64 0 = 0`. -/
theorem c4_hash_formula_witness :
    ∃ x, ((1, 0) : Nat × Nat).2 =
        fmix64 (to_candidate_lmer (Meros.create 4 3 0 0) x ^^^
          (Meros.create 4 3 0 0).toggle_mask) ∧
      ((1, 0) : Nat × Nat).2 = fmix64 (maskedCanonical (Meros.create 4 3 0 0) x) :=
  c4_hash_formula (Meros.create 4 3 0 0) [65, 65, 65, 65, 65] (1, 0) (by decide)

/-- The run of the window keeps its capacity. -/
theorem runW_capacity (c : Nat → Nat) (w : Nat) : ∀ n, (runW c w n).capacity = w := by
  intro n
  induction n with
  | zero => rfl
  | succ n ih => rw [runW, window_next_capacity, ih]

/-- Away from capacity 1, `count` after `n` steps is `n`. -/
theorem runW_count (c : Nat → Nat) (w : Nat) (hw : w ≠ 1) :
    ∀ n, (runW c w n).count = n := by
  intro n
  induction n with
  | zero => rfl
  | succ n ih =>
    rw [runW, window_next_count _ _ (by rw [runW_capacity]; exact hw), ih]

/-- With capacity 1 the window state never changes. -/
theorem runW_cap1 (c : Nat → Nat) : ∀ n, runW c 1 n = MinimizerWindow.mkNew 1 := by
  intro n
  induction n with
  | zero => rfl
  | succ n ih =>
    rw [runW, ih, window_next_cap1 _ _ rfl]

/-- On a list whose `p`-satisfying elements form a prefix (the predicate is
downward closed along the list), `dropWhile` is `filter`. -/
theorem dropWhile_eq_filter_of_mono {α : Type} (p : α → Bool) :
    ∀ l : List α, l.Pairwise (fun a b => p b = true → p a = true) →
      l.dropWhile p = l.filter (fun a => !p a) := by
  intro l
  induction l with
  | nil => intro _; rfl
  | cons a t ih =>
    intro hp
    rw [List.pairwise_cons] at hp
    cases hpa : p a with
    | true =>
      rw [List.dropWhile_cons_of_pos hpa, ih hp.2, List.filter_cons]
      simp [hpa]
    | false =>
      rw [List.dropWhile_cons_of_neg (by simp [hpa]), List.filter_cons]
      simp only [hpa, Bool.not_false, if_pos]
      have : t.filter (fun x => !p x) = t := by
        rw [List.filter_eq_self]
        intro b hb
        simp only [Bool.not_eq_true']
        cases hpb : p b with
        | true => rw [hp.1 b hb hpb] at hpa; exact hpa
        | false => rfl
      rw [this]

/-- On a deque whose `p`-satisfying elements form a suffix (the predicate
is upward closed along the deque), the back-eviction loop is `filter`. -/
theorem popBackWhile_eq_filter {α : Type} (p : α → Bool) (l : List α)
    (h : l.Pairwise (fun a b => p a = true → p b = true)) :
    popBackWhile p l = l.filter (fun a => !p a) := by
  unfold popBackWhile
  rw [dropWhile_eq_filter_of_mono p l.reverse (List.pairwise_reverse.mpr h),
    List.filter_reverse, List.reverse_reverse]

/-- `stairOk` gives the domination inequality pointwise. -/
theorem stairOk_le (c : Nat → Nat) (p last q : Nat) (h : stairOk c p last = true)
    (h1 : p < q) (h2 : q ≤ last) : c p ≤ c q := by
  unfold stairOk at h
  rw [List.all_eq_true] at h
  have hq : q ∈ List.range' (p + 1) (last - p) := by
    rw [List.mem_range']
    exact ⟨q - (p + 1), by omega, by omega⟩
  simpa using h q hq

/-- `stairOk` from the pointwise inequalities. -/
theorem stairOk_intro (c : Nat → Nat) (p last : Nat)
    (h : ∀ q, p < q → q ≤ last → c p ≤ c q) : stairOk c p last = true := by
  unfold stairOk
  rw [List.all_eq_true]
  intro q hq
  rw [List.mem_range'] at hq
  obtain ⟨i, hi, rfl⟩ := hq
  simpa using h _ (by omega) (by omega)

/-- Position of a stair entry. -/
theorem stairEntry_pos (c : Nat → Nat) (p : Nat) : (stairEntry c p).pos = p := rfl

/-- Value of a stair entry. -/
theorem stairEntry_val (c : Nat → Nat) (p : Nat) :
    (stairEntry c p).candidate_lmer = c p := rfl

/-- Membership in the deque model. -/
theorem stairList_mem (c : Nat → Nat) (w n : Nat) (d : MinimizerData) :
    d ∈ stairList c w n ↔
      (d.pos < n ∧ stairPred c w n d.pos = true ∧ d = stairEntry c d.pos) := by
  unfold stairList
  rw [List.mem_map]
  constructor
  · rintro ⟨p, hp, rfl⟩
    rw [List.mem_filter, List.mem_range] at hp
    exact ⟨hp.1, hp.2, rfl⟩
  · rintro ⟨h1, h2, h3⟩
    exact ⟨d.pos, by rw [List.mem_filter, List.mem_range]; exact ⟨h1, h2⟩, h3.symm⟩

/-- The deque model is sorted by position. -/
theorem stairList_sorted_pos (c : Nat → Nat) (w n : Nat) :
    (stairList c w n).Pairwise (fun d e => d.pos < e.pos) := by
  unfold stairList
  exact ((List.pairwise_lt_range n).filter _).map _ (fun a b h => h)

/-- The deque model is monotone in the stored candidate values. -/
theorem stairList_mono_val (c : Nat → Nat) (w n : Nat) :
    (stairList c w n).Pairwise
      (fun d e => d.candidate_lmer ≤ e.candidate_lmer) := by
  refine (stairList_sorted_pos c w n).imp_of_mem ?_
  intro d e hd he hlt
  rw [stairList_mem] at hd he
  rw [hd.2.2, he.2.2, stairEntry_val, stairEntry_val]
  have hok : stairOk c d.pos (n - 1) = true := by
    have hsp := hd.2.1
    unfold stairPred at hsp
    rw [Bool.and_eq_true] at hsp
    exact hsp.2
  exact stairOk_le c d.pos (n - 1) e.pos hok hlt (by omega)

/-- Splitting off the last dominated position. -/
theorem stairOk_last (c : Nat → Nat) (p n : Nat) (hp : p < n) :
    stairOk c p n = (stairOk c p (n - 1) && decide (c p ≤ c n)) := by
  unfold stairOk
  have h1 : n - p = (n - 1 - p) + 1 := by omega
  rw [h1, List.range'_concat]
  rw [List.all_append]
  have h2 : p + 1 + (n - 1 - p) = n := by omega
  simp [h2]

/-- The entry just pushed is always in the deque model of the next step. -/
theorem stairPred_last (c : Nat → Nat) (w n : Nat) :
    stairPred c w (n + 1) n = true := by
  unfold stairPred stairOk
  have h1 : n + 1 - 1 - n = 0 := by omega
  rw [h1]
  simp

/-- How the deque-model membership predicate evolves in one step: survive
the value filter, survive the front eviction, and dominate the new
candidate. -/
theorem stairPred_step (c : Nat → Nat) (w n p : Nat) (hp : p < n) :
    ((stairPred c w n p && !(decide (c n < c p))) &&
      !(decide (w ≤ n) && decide (p < n - w))) = stairPred c w (n + 1) p := by
  unfold stairPred
  rw [show n + 1 - 1 = n from rfl, stairOk_last c p n hp]
  have hbb : ∀ a b : Bool, (a = b) ↔ ((a = true) ↔ (b = true)) := by decide
  rw [hbb]
  simp only [Bool.and_eq_true, Bool.not_eq_true', Bool.and_eq_false_iff,
    decide_eq_true_eq, decide_eq_false_iff_not]
  constructor
  · rintro ⟨⟨⟨hb, hS⟩, hcc⟩, hD⟩
    refine ⟨?_, hS, by omega⟩
    rcases hD with hD | hD
    · omega
    · omega
  · rintro ⟨hb, hS, hcc⟩
    refine ⟨⟨⟨by omega, hS⟩, by omega⟩, ?_⟩
    by_cases hwn : w ≤ n
    · exact Or.inr (by omega)
    · exact Or.inl (by omega)

/-- The monotonic-deque invariant: away from the capacity-1 fast path, the
deque after `n` insertions is exactly the in-window positions that
dominate every later candidate, in position order. -/
theorem runW_queue (c : Nat → Nat) (w : Nat) (hw : w ≠ 1) :
    ∀ n, (runW c w n).queue = stairList c w n := by
  intro n
  induction n with
  | zero => simp [runW, MinimizerWindow.mkNew, stairList]
  | succ n ih =>
    have hcap : (runW c w n).capacity = w := runW_capacity c w n
    have hcnt : (runW c w n).count = n := runW_count c w hw n
    rw [runW]
    simp only [MinimizerWindow.next, hcap, if_neg hw, hcnt, ih, popFrontWhile_fst]
    -- back eviction is a filter on the value-monotone deque
    have hback : popBackWhile (fun d => decide (c n < d.candidate_lmer)) (stairList c w n) =
        (stairList c w n).filter (fun d => !(decide (c n < d.candidate_lmer))) := by
      refine popBackWhile_eq_filter _ _ ?_
      refine (stairList_mono_val c w n).imp ?_
      intro d e hde hdc
      rw [decide_eq_true_eq] at hdc ⊢
      omega
    rw [hback]
    -- front eviction is a filter on the position-sorted deque
    have hfrontlist : ((stairList c w n).filter
        (fun d => !(decide (c n < d.candidate_lmer))) ++
          [(⟨n, c n⟩ : MinimizerData)]).Pairwise
        (fun a b => (decide (w ≤ n) && decide (b.pos < n - w)) = true →
          (decide (w ≤ n) && decide (a.pos < n - w)) = true) := by
      have hpos : ((stairList c w n).filter
          (fun d => !(decide (c n < d.candidate_lmer))) ++
            [(⟨n, c n⟩ : MinimizerData)]).Pairwise (fun d e => d.pos < e.pos) := by
        rw [List.pairwise_append]
        refine ⟨(stairList_sorted_pos c w n).filter _, by simp, ?_⟩
        intro d hd e he
        rw [List.mem_filter] at hd
        rw [stairList_mem] at hd
        simp at he
        rw [he]
        exact hd.1.1
      refine hpos.imp ?_
      intro d e hde h
      rw [Bool.and_eq_true, decide_eq_true_eq, decide_eq_true_eq] at h ⊢
      exact ⟨h.1, by omega⟩
    rw [dropWhile_eq_filter_of_mono _ _ hfrontlist]
    rw [List.filter_append]
    have hone : List.filter
        (fun d => !(decide (w ≤ n) && decide (d.pos < n - w)))
        [(⟨n, c n⟩ : MinimizerData)] = [(⟨n, c n⟩ : MinimizerData)] := by
      simp
    rw [hone]
    unfold stairList
    rw [List.filter_map]
    have hrange : List.range (n + 1) = List.range n ++ [n] := List.range_succ n
    rw [hrange, List.filter_append]
    have hlast : List.filter (stairPred c w (n + 1)) [n] = [n] := by
      simp [stairPred_last c w n]
    rw [hlast, List.map_append, List.filter_map, List.filter_filter, List.filter_filter]
    congr 1
    congr 1
    refine List.filter_congr ?_
    intro p hp
    rw [List.mem_range] at hp
    have hstep := stairPred_step c w n p hp
    rw [← hstep]
    simp only [Function.comp_apply, stairEntry_pos, stairEntry_val]
    cases h1 : stairPred c w n p <;> cases h2 : decide (c n < c p) <;>
      cases h3 : (decide (w ≤ n) && decide (p < n - w)) <;> simp

/-- Head of the positions of `range n` surviving a filter whose first
surviving position is `p0`. -/
theorem filter_range_head (φ : Nat → Bool) (n p0 : Nat) (hp0 : p0 < n)
    (hφ : φ p0 = true) (hmin : ∀ q, q < p0 → φ q = false) :
    ((List.range n).filter φ).head? = some p0 := by
  induction n with
  | zero => omega
  | succ n ih =>
    rw [List.range_succ, List.filter_append]
    by_cases h : p0 < n
    · rw [List.head?_append, ih h]
      rfl
    · have hp0n : p0 = n := by omega
      subst hp0n
      have hnil : (List.range p0).filter φ = [] := by
        rw [List.filter_eq_nil_iff]
        intro a ha
        rw [List.mem_range] at ha
        simp [hmin a ha]
      rw [hnil]
      simp [hφ]

/-- `minPosFrom` stays above its lower bound. -/
theorem minPosFrom_lb (c : Nat → Nat) (lo : Nat) :
    ∀ len, lo ≤ minPosFrom c lo len := by
  intro len
  induction len with
  | zero => exact Nat.le_refl lo
  | succ len ih =>
    unfold minPosFrom
    split
    · omega
    · exact ih

/-- `minPosFrom` stays below its upper bound. -/
theorem minPosFrom_ub (c : Nat → Nat) (lo : Nat) :
    ∀ len, minPosFrom c lo len ≤ lo + len := by
  intro len
  induction len with
  | zero => exact Nat.le_refl lo
  | succ len ih =>
    unfold minPosFrom
    split
    · omega
    · omega

/-- `minPosFrom` attains the interval minimum. -/
theorem minPosFrom_min (c : Nat → Nat) (lo : Nat) :
    ∀ len q, lo ≤ q → q ≤ lo + len → c (minPosFrom c lo len) ≤ c q := by
  intro len
  induction len with
  | zero =>
    intro q h1 h2
    have : q = lo := by omega
    subst this
    exact Nat.le_refl _
  | succ len ih =>
    intro q h1 h2
    unfold minPosFrom
    split
    · rename_i hlt
      by_cases hq : q ≤ lo + len
      · exact Nat.le_of_lt (Nat.lt_of_lt_of_le hlt (ih q h1 hq))
      · have : q = lo + (len + 1) := by omega
        subst this
        exact Nat.le_refl _
    · rename_i hnlt
      by_cases hq : q ≤ lo + len
      · exact ih q h1 hq
      · have : q = lo + (len + 1) := by omega
        subst this
        omega

/-- Every strictly earlier interval position has a strictly larger value:
ties go to the earliest position. -/
theorem minPosFrom_earliest (c : Nat → Nat) (lo : Nat) :
    ∀ len q, lo ≤ q → q < minPosFrom c lo len → c (minPosFrom c lo len) < c q := by
  intro len
  induction len with
  | zero =>
    intro q h1 h2
    unfold minPosFrom at h2
    omega
  | succ len ih =>
    intro q h1 h2
    unfold minPosFrom at h2 ⊢
    split
    · rename_i hlt
      split at h2
      · have hq : q ≤ lo + len := by
          have := minPosFrom_ub c lo len
          omega
        exact Nat.lt_of_lt_of_le hlt (minPosFrom_min c lo len q h1 hq)
      · omega
    · rename_i hnlt
      split at h2
      · omega
      · exact ih q h1 h2

/-- The earliest interval argmin is unique. -/
theorem minPosFrom_unique (c : Nat → Nat) (lo len p : Nat) (h1 : lo ≤ p)
    (h2 : p ≤ lo + len)
    (hmin : ∀ q, lo ≤ q → q ≤ lo + len → c p ≤ c q)
    (hstr : ∀ q, lo ≤ q → q < p → c p < c q) : p = minPosFrom c lo len := by
  rcases Nat.lt_trichotomy p (minPosFrom c lo len) with h | h | h
  · have ha := minPosFrom_earliest c lo len p h1 h
    have hb := hmin (minPosFrom c lo len) (minPosFrom_lb c lo len)
      (minPosFrom_ub c lo len)
    omega
  · exact h
  · have ha := hstr (minPosFrom c lo len) (minPosFrom_lb c lo len) h
    have hb := minPosFrom_min c lo len p h1 h2
    omega

/-- The earliest window argmin at step `j` is the least position the deque
model of step `j + 1` retains. -/
theorem minPosEnd_least_stair (c : Nat → Nat) (w j : Nat) (hj : w ≤ j) :
    (j - w ≤ minPosEnd c w j ∧ minPosEnd c w j ≤ j) ∧
    stairPred c w (j + 1) (minPosEnd c w j) = true ∧
    (∀ q, q < minPosEnd c w j → stairPred c w (j + 1) q = false) := by
  have hlb := minPosFrom_lb c (j - w) w
  have hub := minPosFrom_ub c (j - w) w
  have hsum : j - w + w = j := by omega
  unfold minPosEnd
  refine ⟨⟨hlb, by omega⟩, ?_, ?_⟩
  · unfold stairPred
    rw [Bool.and_eq_true]
    constructor
    · simp only [decide_eq_true_eq]
      omega
    · rw [show j + 1 - 1 = j from rfl]
      refine stairOk_intro c _ j ?_
      intro q hq1 hq2
      exact minPosFrom_min c (j - w) w q (by omega) (by omega)
  · intro q hq
    unfold stairPred
    by_cases hqb : j + 1 - 1 - w ≤ q
    · rw [show j + 1 - 1 = j from rfl] at hqb ⊢
      cases hS : stairOk c q j with
      | false => simp [hS]
      | true =>
        exfalso
        have h1 := stairOk_le c q j (minPosFrom c (j - w) w) hS hq (by omega)
        have h2 := minPosFrom_earliest c (j - w) w q (by omega) hq
        omega
    · have hdec : decide (j + 1 - 1 - w ≤ q) = false := decide_eq_false hqb
      rw [hdec, Bool.false_and]

/-- The front of the deque model is the earliest window argmin. -/
theorem stairList_head (c : Nat → Nat) (w n : Nat) (hn : 1 ≤ n)
    (hw : w ≤ n - 1) :
    (stairList c w n).head? = some (stairEntry c (minPosEnd c w (n - 1))) := by
  unfold stairList
  rw [List.head?_map]
  have h := minPosEnd_least_stair c w (n - 1) hw
  have heq : (n - 1) + 1 = n := by omega
  rw [heq] at h
  rw [filter_range_head (stairPred c w n) n (minPosEnd c w (n - 1))
    (by omega) h.2.1 h.2.2]
  rfl

/-- The deque model is never empty after a step: the entry just pushed
stays. -/
theorem stairList_ne_nil (c : Nat → Nat) (w n : Nat) (hn : 1 ≤ n) :
    stairList c w n ≠ [] := by
  intro h
  have hmem : stairEntry c (n - 1) ∈ stairList c w n := by
    rw [stairList_mem]
    refine ⟨by rw [stairEntry_pos]; omega, ?_, by rw [stairEntry_pos]⟩
    rw [stairEntry_pos]
    have := stairPred_last c w (n - 1)
    rwa [show n - 1 + 1 = n by omega] at this
  rw [h] at hmem
  exact absurd hmem (by simp)

/-- Every stored value of the deque model is at least the window minimum. -/
theorem stairList_val_ge (c : Nat → Nat) (w n : Nat) (hn : 1 ≤ n)
    (hw : w ≤ n - 1) :
    ∀ d ∈ stairList c w n, c (minPosEnd c w (n - 1)) ≤ d.candidate_lmer := by
  intro d hd
  rw [stairList_mem] at hd
  obtain ⟨hdpos, hdpred, hdentry⟩ := hd
  unfold stairPred at hdpred
  rw [Bool.and_eq_true, decide_eq_true_eq] at hdpred
  have hdb := hdpred.1
  have hval : d.candidate_lmer = c d.pos := by
    conv_lhs => rw [hdentry]
    rfl
  rw [hval]
  unfold minPosEnd
  exact minPosFrom_min c (n - 1 - w) w d.pos (by omega) (by omega)

/-- The prefix eviction never drops the entry just appended. -/
theorem dropWhile_append_singleton_ne_nil {α : Type} {p : α → Bool}
    {l : List α} {d : α} (hd : p d = false) :
    (l ++ [d]).dropWhile p ≠ [] := by
  rw [List.dropWhile_append]
  split
  · rw [show ([d] : List α).dropWhile p = [d] from by
      simp [List.dropWhile_cons, hd]]
    simp
  · simp

/-- `MinimizerWindow::next` returns `Some` exactly when its `changed` flag
is set: away from the fast path, the deque after pushing is never empty. -/
theorem window_next_isSome (w : MinimizerWindow) (cand : Nat)
    (h1 : w.capacity ≠ 1) :
    ((w.next cand).1).isSome =
      (((popBackWhile (fun d => decide (cand < d.candidate_lmer)) w.queue).isEmpty &&
          decide (w.capacity ≤ w.count)) ||
        decide (w.count = w.capacity) ||
        (popFrontWhile (fun d => decide (w.capacity ≤ w.count) &&
            decide (d.pos < w.count - w.capacity))
          (popBackWhile (fun d => decide (cand < d.candidate_lmer)) w.queue ++
            [(⟨w.count, cand⟩ : MinimizerData)])).2) := by
  have hdata : (decide (w.capacity ≤ w.count) &&
      decide ((⟨w.count, cand⟩ : MinimizerData).pos < w.count - w.capacity)) = false := by
    simp only [Bool.and_eq_false_iff, decide_eq_false_iff_not]
    right
    omega
  have hne := dropWhile_append_singleton_ne_nil
    (p := fun d : MinimizerData =>
      decide (w.capacity ≤ w.count) && decide (d.pos < w.count - w.capacity))
    (l := popBackWhile (fun d => decide (cand < d.candidate_lmer)) w.queue)
    (d := (⟨w.count, cand⟩ : MinimizerData)) hdata
  obtain ⟨a, t, hat⟩ := List.exists_cons_of_ne_nil hne
  simp only [MinimizerWindow.next, if_neg h1, popFrontWhile_fst]
  rw [Bool.or_assoc]
  split
  · rename_i hch
    rw [hat]
    simp [hch]
  · rename_i hch
    simp [hch]

/-- C2 core: for capacity at least 2, step `n` of the window returns
`Some` exactly when the window has filled (`n = capacity`) or the earliest
argmin position of the retained window of candidates changes. -/
theorem stairs_popBack (c : Nat → Nat) (w n x : Nat) :
    popBackWhile (fun d => decide (x < d.candidate_lmer)) (stairList c w n) =
      (stairList c w n).filter (fun d => !(decide (x < d.candidate_lmer))) := by
  refine popBackWhile_eq_filter _ _ ?_
  refine (stairList_mono_val c w n).imp ?_
  intro d e hde hdc
  rw [decide_eq_true_eq] at hdc ⊢
  omega

/-- C2 core: for capacity at least 2, step `n` of the window returns
`Some` exactly when the window has filled (`n = capacity`) or the earliest
argmin position of the retained window of candidates changes. -/
theorem emitsAt_iff (c : Nat → Nat) (w n : Nat) (hw : 2 ≤ w) :
    (emitsAt c w n = true ↔
      (w ≤ n ∧ (n = w ∨ minPosEnd c w n ≠ minPosEnd c w (n - 1)))) := by
  have hw1 : w ≠ 1 := by omega
  have hcap := runW_capacity c w n
  have hcnt := runW_count c w hw1 n
  unfold emitsAt emitAt
  rw [window_next_isSome _ _ (by rw [hcap]; exact hw1)]
  rw [hcap, hcnt, runW_queue c w hw1 n]
  rcases Nat.lt_trichotomy n w with hlt | heqn | hgt
  · have hle : decide (w ≤ n) = false := decide_eq_false (by omega)
    have heq : decide (n = w) = false := decide_eq_false (by omega)
    have hfr := popFrontWhile_snd_false
      (fun d : MinimizerData => decide (w ≤ n) && decide (d.pos < n - w))
      (fun a => by simp [hle])
      (popBackWhile (fun d => decide (c n < d.candidate_lmer)) (stairList c w n) ++
        [(⟨n, c n⟩ : MinimizerData)])
    rw [hfr, hle, heq]
    constructor
    · intro hB
      simp at hB
    · rintro ⟨hwn, -⟩
      omega
  · have heq : decide (n = w) = true := decide_eq_true heqn
    constructor
    · intro _
      exact ⟨by omega, Or.inl heqn⟩
    · intro _
      rw [heq]
      simp
  · have hn1 : 1 ≤ n := by omega
    have hwn1 : w ≤ n - 1 := by omega
    have hwle : decide (w ≤ n) = true := decide_eq_true (by omega)
    have heq : decide (n = w) = false := decide_eq_false (by omega)
    have hF0lb : n - 1 - w ≤ minPosEnd c w (n - 1) := minPosFrom_lb c (n - 1 - w) w
    have hF0ub : minPosEnd c w (n - 1) ≤ n - 1 := by
      have := minPosFrom_ub c (n - 1 - w) w
      unfold minPosEnd
      omega
    have hF1lb : n - w ≤ minPosEnd c w n := minPosFrom_lb c (n - w) w
    have hF1ub : minPosEnd c w n ≤ n := by
      have := minPosFrom_ub c (n - w) w
      unfold minPosEnd
      omega
    have hF1n : c (minPosEnd c w n) ≤ c n := by
      unfold minPosEnd
      exact minPosFrom_min c (n - w) w n (by omega) (by omega)
    have hhead := stairList_head c w n hn1 hwn1
    obtain ⟨a, t, hat⟩ := List.exists_cons_of_ne_nil (stairList_ne_nil c w n hn1)
    have ha : a = stairEntry c (minPosEnd c w (n - 1)) := by
      rw [hat] at hhead
      simpa using hhead
    subst ha
    rw [stairs_popBack c w n (c n)]
    by_cases hlt0 : c n < c (minPosEnd c w (n - 1))
    · have hq1 : (stairList c w n).filter
          (fun d => !(decide (c n < d.candidate_lmer))) = [] := by
        rw [List.filter_eq_nil_iff]
        intro d hd
        have hge := stairList_val_ge c w n hn1 hwn1 d hd
        simp
        omega
      rw [hq1]
      constructor
      · intro _
        refine ⟨by omega, Or.inr ?_⟩
        intro hcon
        rw [hcon] at hF1n
        omega
      · intro _
        simp [hwle]
    · have hq1 : (stairList c w n).filter
          (fun d => !(decide (c n < d.candidate_lmer))) =
          stairEntry c (minPosEnd c w (n - 1)) ::
            t.filter (fun d => !(decide (c n < d.candidate_lmer))) := by
        rw [hat, List.filter_cons]
        simp [stairEntry_val, hlt0]
      rw [hq1]
      have hfr : (popFrontWhile (fun d => decide (w ≤ n) && decide (d.pos < n - w))
          ((stairEntry c (minPosEnd c w (n - 1)) ::
            t.filter (fun d => !(decide (c n < d.candidate_lmer)))) ++
            [(⟨n, c n⟩ : MinimizerData)])).2 =
          decide (minPosEnd c w (n - 1) < n - w) := by
        rw [List.cons_append, popFrontWhile_snd]
        rw [hwle, Bool.true_and, stairEntry_pos]
      rw [hfr, heq]
      constructor
      · intro hB
        simp only [List.isEmpty_cons, Bool.false_and, Bool.false_or,
          Bool.or_false, decide_eq_true_eq] at hB
        refine ⟨by omega, Or.inr ?_⟩
        omega
      · rintro ⟨-, hor⟩
        have hlt1 : minPosEnd c w (n - 1) < n - w := by
          rcases hor with h | hne
          · omega
          · by_contra hB
            apply hne
            have hF0eq : minPosEnd c w (n - 1) = minPosFrom c (n - w) w := by
              refine minPosFrom_unique c (n - w) w _ (by omega) (by omega) ?_ ?_
              · intro q hq1 hq2
                by_cases hqn : q ≤ n - 1
                · exact minPosFrom_min c (n - 1 - w) w q (by omega) (by omega)
                · have hqeq : q = n := by omega
                  subst hqeq
                  omega
              · intro q hq1 hq2
                exact minPosFrom_earliest c (n - 1 - w) w q (by omega) hq2
            exact hF0eq.symm
        simp [hlt1]

/-- C2: a call to `MinimizerWindow::next` returns `Some` exactly when the
identity (earliest position) of the current retained-window minimum
changes, including the first time the window fills (`n = capacity`); while
the minimum's identity stays the same the call returns `None`. With
capacity 1 the fast path returns the candidate on every call — the
one-entry window's minimum is a new identity at every step. -/
theorem c2_change_only_emission :
    (∀ (c : Nat → Nat) (n : Nat), emitsAt c 1 n = true) ∧
    (∀ (c : Nat → Nat) (w n : Nat), 2 ≤ w →
      (emitsAt c w n = true ↔
        (w ≤ n ∧ (n = w ∨ minPosEnd c w n ≠ minPosEnd c w (n - 1))))) := by
  constructor
  · intro c n
    unfold emitsAt emitAt
    rw [runW_cap1 c n, window_next_cap1 _ _ rfl]
    rfl
  · intro c w n hw
    exact emitsAt_iff c w n hw

/-- C2, witness: with the constant candidate stream and capacity 2 the
window emits exactly at step 2 (its fill instant), and with capacity 1 it
emits at every step. -/
theorem c2_change_only_emission_witness :
    emitsAt (fun _ => 0) 1 5 = true ∧ emitsAt (fun _ => 0) 2 2 = true :=
  ⟨c2_change_only_emission.1 (fun _ => 0) 5,
   (c2_change_only_emission.2 (fun _ => 0) 2 2 (by decide)).mpr
     ⟨by decide, Or.inl rfl⟩⟩

/-- C3: on every insertion the back-eviction loop removes exactly a suffix
of entries whose stored `candidate_lmer` is strictly greater than the
incoming candidate; entries whose stored value equals (or is below) the
candidate are kept; consequently the front of the deque is always the
entry with the earliest position among the minimal candidates of the
retained window — the earliest position wins ties. -/
theorem c3_suffix_eviction :
    (∀ (q : List MinimizerData) (cand : Nat),
      ∃ dropped,
        popBackWhile (fun d => decide (cand < d.candidate_lmer)) q ++ dropped = q ∧
        ∀ d ∈ dropped, cand < d.candidate_lmer) ∧
    (∀ (q : List MinimizerData) (cand : Nat) (d : MinimizerData),
      d ∈ q → d.candidate_lmer ≤ cand →
      d ∈ popBackWhile (fun e => decide (cand < e.candidate_lmer)) q) ∧
    (∀ (c : Nat → Nat) (w n : Nat), 2 ≤ w → w + 1 ≤ n →
      ((runW c w n).queue.head? =
          some (stairEntry c (minPosEnd c w (n - 1))) ∧
        (∀ q, n - 1 - w ≤ q → q ≤ n - 1 → c (minPosEnd c w (n - 1)) ≤ c q) ∧
        (∀ q, n - 1 - w ≤ q → q < minPosEnd c w (n - 1) →
          c (minPosEnd c w (n - 1)) < c q))) := by
  refine ⟨?_, ?_, ?_⟩
  · intro q cand
    refine ⟨(q.reverse.takeWhile
      (fun d => decide (cand < d.candidate_lmer))).reverse, ?_, ?_⟩
    · unfold popBackWhile
      rw [← List.reverse_append, List.takeWhile_append_dropWhile, List.reverse_reverse]
    · intro d hd
      rw [List.mem_reverse] at hd
      have := List.mem_takeWhile_imp hd
      simpa using this
  · intro q cand d hdq hdle
    unfold popBackWhile
    rw [List.mem_reverse]
    have hdq2 : d ∈ q.reverse := List.mem_reverse.mpr hdq
    conv at hdq2 =>
      rw [← List.takeWhile_append_dropWhile
        (p := fun e => decide (cand < e.candidate_lmer)) (l := q.reverse)]
    rcases List.mem_append.mp hdq2 with h | h
    · have := List.mem_takeWhile_imp h
      rw [decide_eq_true_eq] at this
      omega
    · exact h
  · intro c w n hw hn
    have hw1 : w ≠ 1 := by omega
    refine ⟨?_, ?_, ?_⟩
    · rw [runW_queue c w hw1 n]
      exact stairList_head c w n (by omega) (by omega)
    · intro q hq1 hq2
      unfold minPosEnd
      exact minPosFrom_min c (n - 1 - w) w q (by omega) (by omega)
    · intro q hq1 hq2
      unfold minPosEnd
      exact minPosFrom_earliest c (n - 1 - w) w q (by omega) hq2

/-- C3, witness: an entry equal to the incoming candidate is kept, and on
the constant stream with capacity 2 after 3 insertions the front is the
earliest argmin of the retained window. -/
theorem c3_suffix_eviction_witness :
    ((⟨0, 5⟩ : MinimizerData) ∈
      popBackWhile (fun e => decide (5 < e.candidate_lmer))
        [(⟨0, 5⟩ : MinimizerData)]) ∧
    (runW (fun _ => 0) 2 3).queue.head? =
      some (stairEntry (fun _ => 0) (minPosEnd (fun _ => 0) 2 2)) :=
  ⟨c3_suffix_eviction.2.1 [(⟨0, 5⟩ : MinimizerData)] 5 ⟨0, 5⟩ (by decide) (by decide),
   (c3_suffix_eviction.2.2 (fun _ => 0) 2 3 (by decide) (by decide)).1⟩

/-- C10: `reduce_str` on a `Pair` concatenates `f a`, the separator and
`f b` exactly when `f a` is non-empty; when `f a` is empty the result is
`f b` with no separator (the separator decision looks at the accumulated
string, not the position), and on a `Single` the result is `f a`. -/
theorem c10_reduce_str {T : Type} (f : T → String) (sep : String) (a b : T) :
    OptionPair.reduce_str (OptionPair.Pair a b) sep f =
      (if (f a).isEmpty then f b else f a ++ sep ++ f b) ∧
    OptionPair.reduce_str (OptionPair.Single a) sep f = f a := by
  constructor
  · show (if ((if ("" : String).isEmpty then f a else "" ++ sep ++ f a)).isEmpty then f b
        else (if ("" : String).isEmpty then f a else "" ++ sep ++ f a) ++ sep ++ f b) = _
    norm_num [String.isEmpty]
  · show (if ("" : String).isEmpty then f a else "" ++ sep ++ f a) = f a
    norm_num [String.isEmpty]

/-- Folding the packing step from an arbitrary accumulator. -/
theorem ofCodes_foldl (ds : List Nat) : ∀ init : Nat,
    ds.foldl (fun v d => 4 * v + d) init = init * 4 ^ ds.length + ofCodes ds := by
  induction ds with
  | nil => intro init; simp [ofCodes]
  | cons d ds ih =>
    intro init
    have hcons : ofCodes (d :: ds) = d * 4 ^ ds.length + ofCodes ds := by
      have h0 : ofCodes (d :: ds) =
          List.foldl (fun v d => 4 * v + d) (4 * 0 + d) ds := rfl
      rw [h0, ih (4 * 0 + d)]
      ring
    rw [List.foldl_cons, ih (4 * init + d), hcons]
    rw [List.length_cons]
    ring

/-- The leading digit contributes its place value. -/
theorem ofCodes_cons (d : Nat) (ds : List Nat) :
    ofCodes (d :: ds) = d * 4 ^ ds.length + ofCodes ds := by
  have h0 : ofCodes (d :: ds) =
      List.foldl (fun v d => 4 * v + d) (4 * 0 + d) ds := rfl
  rw [h0, ofCodes_foldl ds (4 * 0 + d)]
  ring

/-- Appending a trailing digit shifts and adds. -/
theorem ofCodes_append_one (ds : List Nat) (x : Nat) :
    ofCodes (ds ++ [x]) = 4 * ofCodes ds + x := by
  unfold ofCodes
  rw [List.foldl_append]
  rfl

/-- A digit list with digits below 4 packs below `4 ^ length`. -/
theorem ofCodes_lt (ds : List Nat) (h : ∀ d ∈ ds, d < 4) :
    ofCodes ds < 4 ^ ds.length := by
  induction ds with
  | nil => simp [ofCodes]
  | cons d ds ih =>
    rw [ofCodes_cons, List.length_cons, pow_succ]
    have hd : d < 4 := h d (by simp)
    have hr : ofCodes ds < 4 ^ ds.length := ih (fun e he => h e (by simp [he]))
    have : d * 4 ^ ds.length ≤ 3 * 4 ^ ds.length :=
      Nat.mul_le_mul_right _ (by omega)
    nlinarith [pow_pos (show 0 < 4 by norm_num) ds.length]

/-- Unfolding one digit of the big-endian digit expansion. -/
theorem toCodes_succ (x n : Nat) :
    toCodes x (n + 1) = (x / 4 ^ n % 4) :: toCodes (x % 4 ^ n) n := by
  unfold toCodes
  rw [List.range_succ_eq_map, List.map_cons, List.map_map]
  congr 1
  refine List.map_congr_left ?_
  intro i hi
  rw [List.mem_range] at hi
  show x / 4 ^ (n + 1 - 1 - (i + 1)) % 4 = x % 4 ^ n / 4 ^ (n - 1 - i) % 4
  have he : n + 1 - 1 - (i + 1) = n - 1 - i := by omega
  rw [he]
  have hsplit : 4 ^ n = 4 ^ (n - 1 - i) * 4 ^ (n - (n - 1 - i)) := by
    rw [← pow_add]
    congr 1
    omega
  have h1 : x % 4 ^ n / 4 ^ (n - 1 - i) = x / 4 ^ (n - 1 - i) % 4 ^ (n - (n - 1 - i)) := by
    rw [hsplit, Nat.mod_mul_right_div_self]
  rw [h1]
  exact (Nat.mod_mod_of_dvd _ (dvd_pow_self 4 (by omega))).symm

/-- Digit round trip: packing then unpacking recovers the digit list. -/
theorem toCodes_ofCodes (ds : List Nat) (h : ∀ d ∈ ds, d < 4) :
    toCodes (ofCodes ds) ds.length = ds := by
  induction ds with
  | nil => rfl
  | cons d ds ih =>
    rw [List.length_cons, toCodes_succ, ofCodes_cons]
    have hd : d < 4 := h d (by simp)
    have hr : ofCodes ds < 4 ^ ds.length := ofCodes_lt ds (fun e he => h e (by simp [he]))
    have hdiv : (d * 4 ^ ds.length + ofCodes ds) / 4 ^ ds.length = d := by
      rw [mul_comm, Nat.mul_add_div (pow_pos (by norm_num) _)]
      rw [Nat.div_eq_of_lt hr]
      omega
    have hmod : (d * 4 ^ ds.length + ofCodes ds) % 4 ^ ds.length = ofCodes ds := by
      rw [mul_comm, Nat.mul_add_mod, Nat.mod_eq_of_lt hr]
    rw [hdiv, hmod, Nat.mod_eq_of_lt hd, ih (fun e he => h e (by simp [he]))]

/-- `reverse_complement` on a packed digit list complements each digit and
reverses the order. -/
theorem reverse_complement_ofCodes (ds : List Nat) (h : ∀ d ∈ ds, d < 4) :
    reverse_complement (ofCodes ds) ds.length =
      ofCodes (ds.reverse.map (fun d => 3 - d)) := by
  unfold reverse_complement
  rw [toCodes_ofCodes ds h]

/-- Reverse complementing twice recovers the packed value. -/
theorem reverse_complement_involutive (ds : List Nat) (h : ∀ d ∈ ds, d < 4) :
    reverse_complement (ofCodes (ds.reverse.map (fun d => 3 - d))) ds.length =
      ofCodes ds := by
  have hlen : (ds.reverse.map (fun d => 3 - d)).length = ds.length := by
    simp
  have hlt : ∀ d ∈ ds.reverse.map (fun d => 3 - d), d < 4 := by
    intro d hd
    rw [List.mem_map] at hd
    obtain ⟨e, -, he⟩ := hd
    omega
  rw [← hlen, reverse_complement_ofCodes _ hlt]
  congr 1
  rw [List.map_reverse, List.map_map, List.map_reverse, List.reverse_reverse]
  conv_rhs => rw [← List.map_id ds]
  refine List.map_congr_left ?_
  intro d hd
  have : d < 4 := h d hd
  simp only [Function.comp_apply, id]
  omega

/-- Canonical representation is invariant under reverse complement of the
packed digit list. -/
theorem canonical_rev_comp (ds : List Nat) (h : ∀ d ∈ ds, d < 4) :
    canonical_representation (ofCodes (ds.reverse.map (fun d => 3 - d)))
        ds.length =
      canonical_representation (ofCodes ds) ds.length := by
  unfold canonical_representation
  rw [reverse_complement_involutive ds h]
  have hlen : (ds.reverse.map (fun d => 3 - d)).length = ds.length := by
    simp
  rw [show reverse_complement (ofCodes ds) ds.length =
      ofCodes (ds.reverse.map (fun d => 3 - d)) from
    reverse_complement_ofCodes ds h]
  exact Nat.min_comm _ _

/-- The 2-bit code of an ACGT byte's complement is the digit complement. -/
theorem codeOf_byteComp (b : Nat) (h : isACGT b = true) :
    codeOf (byteComp b) = 3 - codeOf b := by
  simp only [isACGT, Bool.or_eq_true, beq_iff_eq] at h
  rcases h with ((rfl | rfl) | rfl) | rfl <;> rfl

/-- The complement of an ACGT byte is an ACGT byte. -/
theorem isACGT_byteComp (b : Nat) (h : isACGT b = true) :
    isACGT (byteComp b) = true := by
  simp only [isACGT, Bool.or_eq_true, beq_iff_eq] at h ⊢
  rcases h with ((rfl | rfl) | rfl) | rfl <;> simp [byteComp]

/-- Every byte of the reverse complement of an ACGT sequence is ACGT. -/
theorem seqRevComp_acgt (s : List Nat) (h : ∀ b ∈ s, isACGT b = true) :
    ∀ b ∈ seqRevComp s, isACGT b = true := by
  intro b hb
  unfold seqRevComp at hb
  rw [List.mem_reverse, List.mem_map] at hb
  obtain ⟨e, he, rfl⟩ := hb
  exact isACGT_byteComp e (h e he)

/-- Codes of the reverse complement: complement each code, then reverse. -/
theorem codesOf_seqRevComp (s : List Nat) (h : ∀ b ∈ s, isACGT b = true) :
    codesOf (seqRevComp s) = ((codesOf s).map (fun d => 3 - d)).reverse := by
  unfold codesOf seqRevComp
  rw [List.map_reverse, List.map_map, List.map_map]
  congr 1
  refine List.map_congr_left ?_
  intro b hb
  simp only [Function.comp_apply]
  exact codeOf_byteComp b (h b hb)

/-- Codes of an ACGT sequence are below 4. -/
theorem codesOf_lt (s : List Nat) (h : ∀ b ∈ s, isACGT b = true) :
    ∀ d ∈ codesOf s, d < 4 := by
  intro d hd
  unfold codesOf at hd
  rw [List.mem_map] at hd
  obtain ⟨b, hb, rfl⟩ := hd
  exact (acgt_byte b (h b hb)).2.2.2

/-- The l-mer of the reverse complement at offset `j` packs the reversed,
complemented mirror window of the original codes. -/
theorem lmerAt_seqRevComp (l : Nat) (s : List Nat) (j : Nat)
    (h : ∀ b ∈ s, isACGT b = true) (hj : j + l ≤ s.length) :
    lmerAt l (seqRevComp s) j =
      ofCodes (((codesOf s).drop (s.length - l - j)).take l |>.reverse.map
        (fun d => 3 - d)) := by
  have hLen : (codesOf s).length = s.length := by
    unfold codesOf
    rw [List.length_map]
  unfold lmerAt
  rw [codesOf_seqRevComp s h]
  congr 1
  set xs := (codesOf s).map (fun d => 3 - d) with hxs
  have hxsLen : xs.length = s.length := by
    rw [hxs, List.length_map, hLen]
  rw [List.drop_reverse, List.take_reverse]
  rw [List.length_take, hxsLen]
  have hmin : min (s.length - j) s.length = s.length - j := by omega
  rw [hmin]
  rw [List.drop_take]
  have harith : s.length - j - (s.length - j - l) = l := by omega
  rw [harith]
  rw [hxs, ← List.map_drop, ← List.map_take, ← List.map_reverse]
  rw [show s.length - j - l = s.length - l - j by omega]

/-- The candidate fed to the window at step `j` of the reverse complement
equals the candidate at the mirrored step of the forward scan. -/
theorem candAt_seqRevComp (meros : Meros) (s : List Nat) (j : Nat)
    (h : ∀ b ∈ s, isACGT b = true) (hl : 1 ≤ meros.l_mer)
    (hls : meros.l_mer ≤ s.length) (hj : j < numCand meros.l_mer s) :
    candAt meros (seqRevComp s) j =
      candAt meros s (numCand meros.l_mer s - 1 - j) := by
  set l := meros.l_mer with hldef
  set i := numCand l s - 1 - j with hidef
  have hi : i = s.length - l - j := by
    rw [hidef]
    unfold numCand
    omega
  have hil : i + l ≤ s.length := by
    unfold numCand at hj
    omega
  have hjl : j + l ≤ s.length := by
    unfold numCand at hj
    omega
  set W := ((codesOf s).drop i).take l with hW
  have hLen : (codesOf s).length = s.length := by
    unfold codesOf
    rw [List.length_map]
  have hWlen : W.length = l := by
    rw [hW, List.length_take, List.length_drop, hLen]
    omega
  have hWlt : ∀ d ∈ W, d < 4 := by
    intro d hd
    exact codesOf_lt s h d (List.drop_subset _ _ (List.take_subset _ _ hd))
  have hrev : lmerAt l (seqRevComp s) j =
      ofCodes (W.reverse.map (fun d => 3 - d)) := by
    rw [lmerAt_seqRevComp l s j h hjl, ← hi, ← hW]
  have hfwd : lmerAt l s i = ofCodes W := rfl
  have hcanon : canonical_representation (lmerAt l (seqRevComp s) j) l =
      canonical_representation (lmerAt l s i) l := by
    rw [hrev, hfwd, ← hWlen]
    exact canonical_rev_comp W hWlt
  unfold candAt to_candidate_lmer
  rw [← hldef, hcanon]

/-- One cursor value update, in arithmetic form. -/
theorem cursor_step_eq (l v x : Nat) (hx : x < 4) :
    ((v <<< BITS_PER_CHAR) ||| x) &&& (2 ^ (2 * l) - 1) = (4 * v + x) % 4 ^ l := by
  have hx2 : x < 2 ^ 2 := by simpa using hx
  have h1 : v <<< BITS_PER_CHAR = 2 ^ 2 * v := by
    rw [Nat.shiftLeft_eq]
    show v * 2 ^ 2 = 2 ^ 2 * v
    ring
  have h2 : 2 ^ 2 * v ||| x = 2 ^ 2 * v + x := (Nat.mul_add_lt_is_or hx2 v).symm
  have h3 : (2 : Nat) ^ (2 * l) = 4 ^ l := by
    rw [pow_mul]
    norm_num
  rw [h1, h2, Nat.and_pow_two_sub_one_eq_mod, h3]
  congr 1

/-- The cursor value after processing a code list is the packed value of
the last `l` codes. -/
theorem cursorFold_eq (l : Nat) :
    ∀ ds : List Nat, (∀ d ∈ ds, d < 4) → 1 ≤ l →
      cursorFold l ds = ofCodes (ds.drop (ds.length - l)) := by
  intro ds
  induction ds using List.reverseRecOn with
  | nil =>
    intro hds hl
    rw [List.drop_nil]
    rfl
  | append_singleton ds x ih =>
    intro hds hl
    have hx : x < 4 := hds x (by simp)
    have hds' : ∀ d ∈ ds, d < 4 := fun d hd => hds d (by simp [hd])
    have hstep : cursorFold l (ds ++ [x]) =
        ((cursorFold l ds <<< BITS_PER_CHAR) ||| x) &&& (2 ^ (2 * l) - 1) := by
      unfold cursorFold
      rw [List.foldl_append]
      rfl
    rw [hstep, cursor_step_eq l _ x hx, ih hds' hl]
    by_cases hL : ds.length + 1 ≤ l
    · have h0 : ds.length - l = 0 := by omega
      have h0' : (ds ++ [x]).length - l = 0 := by
        rw [List.length_append, List.length_singleton]
        omega
      rw [h0, h0', List.drop_zero, List.drop_zero, ← ofCodes_append_one]
      refine Nat.mod_eq_of_lt ?_
      have hbound : ofCodes (ds ++ [x]) < 4 ^ (ds ++ [x]).length := by
        refine ofCodes_lt (ds ++ [x]) ?_
        intro d hd
        rw [List.mem_append] at hd
        rcases hd with hd | hd
        · exact hds' d hd
        · rw [List.mem_singleton] at hd
          omega
      calc ofCodes (ds ++ [x]) < 4 ^ (ds ++ [x]).length := hbound
        _ ≤ 4 ^ l := by
            refine Nat.pow_le_pow_right (by norm_num) ?_
            rw [List.length_append, List.length_singleton]
            omega
    · have hlL : l ≤ ds.length := by omega
      have hlen_drop : (ds.drop (ds.length - l)).length = l := by
        rw [List.length_drop]
        omega
      have hne : ds.drop (ds.length - l) ≠ [] := by
        intro hnil
        rw [hnil] at hlen_drop
        simp at hlen_drop
        omega
      obtain ⟨e, es, hes⟩ := List.exists_cons_of_ne_nil hne
      have hlen_es : es.length = l - 1 := by
        rw [hes] at hlen_drop
        simp at hlen_drop
        omega
      have hes' : ds.drop (ds.length - l + 1) = es := by
        have ht := List.tail_drop ds (ds.length - l)
        rw [hes] at ht
        exact ht.symm
      have hdropx : (ds ++ [x]).drop ((ds ++ [x]).length - l) = es ++ [x] := by
        rw [List.length_append, List.length_singleton]
        have hn : ds.length + 1 - l = ds.length - l + 1 := by omega
        rw [hn, List.drop_append_of_le_length (by omega), hes']
      rw [hes, ofCodes_cons, hdropx, ofCodes_append_one]
      have hes_lt : ∀ d ∈ es, d < 4 := by
        intro d hd
        have hmem : d ∈ ds.drop (ds.length - l) := by
          rw [hes]
          simp [hd]
        exact hds' d (List.drop_subset _ _ hmem)
      have h1 : ofCodes es < 4 ^ (l - 1) := by
        have := ofCodes_lt es hes_lt
        rwa [hlen_es] at this
      have hp : (4 : Nat) ^ l = 4 * 4 ^ (l - 1) := by
        conv_lhs => rw [show l = l - 1 + 1 by omega]
        rw [pow_succ]
        ring
      have hesx : 4 * ofCodes es + x < 4 ^ l := by
        rw [hp]
        omega
      have hsplit : 4 * (e * 4 ^ es.length + ofCodes es) + x =
          4 ^ l * e + (4 * ofCodes es + x) := by
        rw [hlen_es, hp]
        ring
      rw [hsplit, Nat.mul_add_mod, Nat.mod_eq_of_lt hesx]

/-- Off the fast path, an emitted value is the head of the updated queue. -/
theorem window_next_some_val (w : MinimizerWindow) (cand v : Nat)
    (h1 : w.capacity ≠ 1) (hv : (w.next cand).1 = some v) :
    ((w.next cand).2).queue.head?.map MinimizerData.candidate_lmer = some v := by
  simp only [MinimizerWindow.next, if_neg h1] at hv ⊢
  split at hv
  · exact hv
  · exact absurd hv (by simp)

/-- For capacity at least 2, an emitted value at step `n ≥ capacity` is the
value of the earliest argmin of the retained window. -/
theorem emitAt_some_val (c : Nat → Nat) (w n v : Nat) (hw : 2 ≤ w)
    (hn : w ≤ n) (hv : emitAt c w n = some v) :
    v = minValEnd c w n := by
  have hw1 : w ≠ 1 := by omega
  have hcap : (runW c w n).capacity = w := runW_capacity c w n
  unfold emitAt at hv
  have hhead := window_next_some_val (runW c w n) (c n) v (by rw [hcap]; exact hw1) hv
  have hq : ((runW c w n).next (c n)).2.queue = stairList c w (n + 1) :=
    runW_queue c w hw1 (n + 1)
  rw [hq] at hhead
  have hsl := stairList_head c w (n + 1) (by omega) (by omega)
  rw [show n + 1 - 1 = n from rfl] at hsl
  rw [hsl] at hhead
  simp only [Option.map_some', stairEntry_val] at hhead
  unfold minValEnd
  exact (Option.some.inj hhead).symm

/-- With capacity at least 2 the first `capacity` steps emit nothing. -/
theorem emValues_eq_nil (c : Nat → Nat) (w : Nat) (hw : 2 ≤ w) :
    ∀ m, m ≤ w → emValues c w m = [] := by
  intro m
  induction m with
  | zero => intro _; rfl
  | succ m ih =>
    intro hm
    show emValues c w m ++ (emitAt c w m).toList = []
    have h1 : emValues c w m = [] := ih (by omega)
    have h2 : emitsAt c w m = false := by
      by_contra hB
      rw [Bool.not_eq_false, emitsAt_iff c w m hw] at hB
      obtain ⟨hB1, -⟩ := hB
      omega
    cases hE : emitAt c w m with
    | none => rw [h1]; rfl
    | some v =>
      unfold emitsAt at h2
      rw [hE] at h2
      simp at h2

/-- Splitting the emitted-values list at an intermediate step count. -/
theorem emValues_add (c : Nat → Nat) (w : Nat) :
    ∀ (k a : Nat), emValues c w (a + k) = emValues c w a ++ emValuesFrom c w a k := by
  intro k
  induction k with
  | zero =>
    intro a
    show emValues c w a = emValues c w a ++ []
    rw [List.append_nil]
  | succ k ih =>
    intro a
    have h1 : a + (k + 1) = (a + 1) + k := by omega
    rw [h1, ih (a + 1)]
    have h2 : emValues c w (a + 1) = emValues c w a ++ (emitAt c w a).toList := rfl
    rw [h2]
    show _ = emValues c w a ++ ((emitAt c w a).toList ++ emValuesFrom c w (a + 1) k)
    rw [List.append_assoc]

/-- C5 core (capacity at least 2): after at least `capacity + 1` steps the
emitted list is non-empty, ends with the current window minimum, and its
members are exactly the window minima of the completed windows. -/
theorem emValues_mem_iff (c : Nat → Nat) (w : Nat) (hw : 2 ≤ w) :
    ∀ m, w + 1 ≤ m →
      ((emValues c w m).getLast? = some (minValEnd c w (m - 1)) ∧
       ∀ v, (v ∈ emValues c w m ↔
         ∃ j, w ≤ j ∧ j ≤ m - 1 ∧ v = minValEnd c w j)) := by
  intro m hm
  induction m, hm using Nat.le_induction with
  | base =>
    have h0 : emValues c w (w + 1) = emValues c w w ++ (emitAt c w w).toList := rfl
    have h1 : emValues c w w = [] := emValues_eq_nil c w hw w (Nat.le_refl w)
    have hemit : emitsAt c w w = true := by
      rw [emitsAt_iff c w w hw]
      exact ⟨Nat.le_refl w, Or.inl rfl⟩
    cases hE : emitAt c w w with
    | none =>
      unfold emitsAt at hemit
      rw [hE] at hemit
      simp at hemit
    | some v =>
      have hv : v = minValEnd c w w := emitAt_some_val c w w v hw (Nat.le_refl w) hE
      rw [h0, h1, hE]
      rw [show (some v).toList = [v] from rfl]
      subst hv
      constructor
      · simp
      · intro u
        simp only [List.nil_append, List.mem_singleton]
        constructor
        · intro h
          exact ⟨w, Nat.le_refl w, by omega, h⟩
        · rintro ⟨j, hj1, hj2, rfl⟩
          have hjw : j = w := by omega
          subst hjw
          rfl
  | succ m hm ih =>
    obtain ⟨ihL, ihM⟩ := ih
    have h0 : emValues c w (m + 1) = emValues c w m ++ (emitAt c w m).toList := rfl
    by_cases hE : emitsAt c w m = true
    · cases hEo : emitAt c w m with
      | none =>
        unfold emitsAt at hE
        rw [hEo] at hE
        simp at hE
      | some v =>
        have hv : v = minValEnd c w m := emitAt_some_val c w m v hw (by omega) hEo
        rw [h0, hEo]
        rw [show (some v).toList = [v] from rfl]
        constructor
        · rw [List.getLast?_concat]
          rw [show m + 1 - 1 = m from rfl, hv]
        · intro u
          rw [List.mem_append, List.mem_singleton, ihM u]
          constructor
          · rintro (⟨j, hj1, hj2, rfl⟩ | rfl)
            · exact ⟨j, hj1, by omega, rfl⟩
            · exact ⟨m, by omega, by omega, hv⟩
          · rintro ⟨j, hj1, hj2, rfl⟩
            by_cases hjm : j ≤ m - 1
            · exact Or.inl ⟨j, hj1, hjm, rfl⟩
            · have hjeq : j = m := by omega
              subst hjeq
              exact Or.inr hv.symm
    · have hEn : emitAt c w m = none := by
        cases hEo : emitAt c w m with
        | none => rfl
        | some v =>
          unfold emitsAt at hE
          rw [hEo] at hE
          simp at hE
      have hFeq : minPosEnd c w m = minPosEnd c w (m - 1) := by
        have hf : ¬ (w ≤ m ∧ (m = w ∨ minPosEnd c w m ≠ minPosEnd c w (m - 1))) := by
          rw [← emitsAt_iff c w m hw]
          exact hE
        by_contra hne
        exact hf ⟨by omega, Or.inr hne⟩
      have hveq : minValEnd c w m = minValEnd c w (m - 1) := by
        unfold minValEnd
        rw [hFeq]
      rw [h0, hEn]
      simp only [Option.toList_none, List.append_nil]
      constructor
      · rw [ihL, show m + 1 - 1 = m from rfl, hveq]
      · intro u
        rw [ihM u]
        constructor
        · rintro ⟨j, hj1, hj2, rfl⟩
          exact ⟨j, hj1, by omega, rfl⟩
        · rintro ⟨j, hj1, hj2, rfl⟩
          by_cases hjm : j ≤ m - 1
          · exact ⟨j, hj1, hjm, rfl⟩
          · have hjeq : j = m := by omega
            refine ⟨m - 1, by omega, by omega, ?_⟩
            rw [hjeq]
            exact hveq

/-- The capacity-1 fast path emits every candidate. -/
theorem emitAt_cap1 (c : Nat → Nat) (n : Nat) : emitAt c 1 n = some (c n) := by
  unfold emitAt
  rw [runW_cap1 c n]
  rfl

/-- With capacity 1 the emitted list is the full candidate stream. -/
theorem emValues_cap1 (c : Nat → Nat) : ∀ n, emValues c 1 n = (List.range n).map c := by
  intro n
  induction n with
  | zero => rfl
  | succ n ih =>
    show emValues c 1 n ++ (emitAt c 1 n).toList = _
    rw [ih, emitAt_cap1, List.range_succ, List.map_append]
    rfl

/-- The value-level scan of an ACGT-only byte list is the window run over
the candidate stream `candAt`: from the state reached after `m` bytes the
remaining bytes produce exactly the window emissions of the remaining
steps. -/
theorem scanValsFrom_corr (meros : Meros) (hl : 1 ≤ meros.l_mer)
    (hmask : meros.mask = 2 ^ (2 * meros.l_mer) - 1) :
    ∀ (r s : List Nat) (m : Nat),
      (∀ b ∈ s, isACGT b = true) → s.drop m = r →
      scanValsFrom meros (scanStateAt meros s m) r =
        emValuesFrom (candAt meros s) meros.window_size (m + 1 - meros.l_mer)
          ((m + r.length + 1 - meros.l_mer) - (m + 1 - meros.l_mer)) := by
  intro r
  induction r with
  | nil =>
    intro s m hall hdrop
    rw [show (m + ([] : List Nat).length + 1 - meros.l_mer) - (m + 1 - meros.l_mer) = 0 from by
      simp only [List.length_nil]
      omega]
    rfl
  | cons b r ih =>
    intro s m hall hdrop
    have hlen : s.length - m = r.length + 1 := by
      rw [← List.length_drop, hdrop, List.length_cons]
    have hmlt : m < s.length := by omega
    have hbm : s[m]? = some b := by
      rw [← List.head?_drop, hdrop]
      rfl
    have hbs : b ∈ s := List.getElem?_mem hbm
    obtain ⟨hcv, h10, h13, hcode4⟩ := acgt_byte b (hall b hbs)
    have hr : s.drop (m + 1) = r := by
      rw [← List.tail_drop, hdrop, List.tail_cons]
    have hcodesLen : (codesOf s).length = s.length := by
      unfold codesOf
      rw [List.length_map]
    have htake : (codesOf s).take (m + 1) = (codesOf s).take m ++ [codeOf b] := by
      rw [List.take_succ]
      unfold codesOf
      rw [List.getElem?_map, hbm]
      rfl
    have hV : ((cursorFold meros.l_mer ((codesOf s).take m) <<< BITS_PER_CHAR) ||| codeOf b)
        &&& meros.mask = cursorFold meros.l_mer ((codesOf s).take (m + 1)) := by
      rw [hmask, htake]
      unfold cursorFold
      rw [List.foldl_append]
      rfl
    have hnext : ((scanStateAt meros s m).1.next_lmer (codeOf b)) =
        ((if meros.l_mer ≤ m + 1
          then some (((cursorFold meros.l_mer ((codesOf s).take m) <<< BITS_PER_CHAR) |||
            codeOf b) &&& meros.mask) else none),
         ⟨m + 1, meros.l_mer,
          ((cursorFold meros.l_mer ((codesOf s).take m) <<< BITS_PER_CHAR) ||| codeOf b)
            &&& meros.mask, meros.mask⟩) := rfl
    rw [hV] at hnext
    by_cases hcap : meros.l_mer ≤ m + 1
    · -- an l-mer completes: window step (m + 1 - l_mer) happens
      rw [if_pos hcap] at hnext
      have hcrs : ((scanStateAt meros s m).1.next_lmer (codeOf b)).1 =
          some (cursorFold meros.l_mer ((codesOf s).take (m + 1))) := by
        rw [hnext]
      have hlt4 : ∀ d ∈ (codesOf s).take (m + 1), d < 4 := fun d hd =>
        codesOf_lt s hall d (List.take_subset _ _ hd)
      have hcand : to_candidate_lmer meros
            (cursorFold meros.l_mer ((codesOf s).take (m + 1))) =
          candAt meros s (m + 1 - meros.l_mer) := by
        have hfold : cursorFold meros.l_mer ((codesOf s).take (m + 1)) =
            lmerAt meros.l_mer s (m + 1 - meros.l_mer) := by
          rw [cursorFold_eq meros.l_mer ((codesOf s).take (m + 1)) hlt4 hl]
          unfold lmerAt
          congr 1
          rw [List.length_take,
            show min (m + 1) (codesOf s).length = m + 1 from by rw [hcodesLen]; omega]
          rw [List.drop_take,
            show m + 1 - (m + 1 - meros.l_mer) = meros.l_mer from by omega]
        rw [hfold]
        rfl
      have hwstep : (scanStateAt meros s m).2.next
            (to_candidate_lmer meros (cursorFold meros.l_mer ((codesOf s).take (m + 1)))) =
          (emitAt (candAt meros s) meros.window_size (m + 1 - meros.l_mer),
           runW (candAt meros s) meros.window_size ((m + 1 - meros.l_mer) + 1)) := by
        rw [hcand]
        rfl
      have hstep : stepByteV meros (scanStateAt meros s m) b =
          ((⟨m + 1, meros.l_mer, cursorFold meros.l_mer ((codesOf s).take (m + 1)),
             meros.mask⟩,
            runW (candAt meros s) meros.window_size ((m + 1 - meros.l_mer) + 1)),
           emitAt (candAt meros s) meros.window_size (m + 1 - meros.l_mer)) := by
        rw [stepByteV_acgt_some meros (scanStateAt meros s m) b (codeOf b)
          (cursorFold meros.l_mer ((codesOf s).take (m + 1))) hcv h10 h13 hcrs]
        rw [hwstep, hnext]
      rw [show scanValsFrom meros (scanStateAt meros s m) (b :: r) =
            (match stepByteV meros (scanStateAt meros s m) b with
             | (cw2, some v) => v :: scanValsFrom meros cw2 r
             | (cw2, none) => scanValsFrom meros cw2 r) from rfl]
      rw [hstep]
      rw [show (m + (b :: r).length + 1 - meros.l_mer) - (m + 1 - meros.l_mer) =
            r.length + 1 from by simp only [List.length_cons]; omega]
      rw [show emValuesFrom (candAt meros s) meros.window_size (m + 1 - meros.l_mer)
            (r.length + 1) =
          (emitAt (candAt meros s) meros.window_size (m + 1 - meros.l_mer)).toList ++
            emValuesFrom (candAt meros s) meros.window_size ((m + 1 - meros.l_mer) + 1)
              r.length from rfl]
      have hstate : ((⟨m + 1, meros.l_mer,
            cursorFold meros.l_mer ((codesOf s).take (m + 1)), meros.mask⟩ : Cursor),
          runW (candAt meros s) meros.window_size ((m + 1 - meros.l_mer) + 1)) =
          scanStateAt meros s (m + 1) := by
        unfold scanStateAt
        rw [show (m + 1 - meros.l_mer) + 1 = m + 1 + 1 - meros.l_mer from by omega]
      have hihr : scanValsFrom meros
          ((⟨m + 1, meros.l_mer,
            cursorFold meros.l_mer ((codesOf s).take (m + 1)), meros.mask⟩ : Cursor),
           runW (candAt meros s) meros.window_size ((m + 1 - meros.l_mer) + 1)) r =
          emValuesFrom (candAt meros s) meros.window_size ((m + 1 - meros.l_mer) + 1)
            r.length := by
        rw [hstate, ih s (m + 1) hall hr]
        rw [show m + 1 + 1 - meros.l_mer = (m + 1 - meros.l_mer) + 1 from by omega]
        rw [show (m + 1 + r.length + 1 - meros.l_mer) - ((m + 1 - meros.l_mer) + 1) =
          r.length from by omega]
      cases hE : emitAt (candAt meros s) meros.window_size (m + 1 - meros.l_mer) with
      | none => exact hihr
      | some v =>
        rw [show (some v).toList = [v] from rfl]
        show v :: scanValsFrom meros
            ((⟨m + 1, meros.l_mer,
              cursorFold meros.l_mer ((codesOf s).take (m + 1)), meros.mask⟩ : Cursor),
             runW (candAt meros s) meros.window_size ((m + 1 - meros.l_mer) + 1)) r =
          v :: emValuesFrom (candAt meros s) meros.window_size
            ((m + 1 - meros.l_mer) + 1) r.length
        exact congrArg (fun t => v :: t) hihr
    · -- the l-mer is still growing: no window step
      rw [if_neg hcap] at hnext
      have hcrn : ((scanStateAt meros s m).1.next_lmer (codeOf b)).1 = none := by
        rw [hnext]
      have hstep : stepByteV meros (scanStateAt meros s m) b =
          ((⟨m + 1, meros.l_mer, cursorFold meros.l_mer ((codesOf s).take (m + 1)),
             meros.mask⟩,
            (scanStateAt meros s m).2), none) := by
        rw [stepByteV_acgt_none meros (scanStateAt meros s m) b (codeOf b) hcv h10 h13 hcrn]
        rw [hnext]
      rw [show scanValsFrom meros (scanStateAt meros s m) (b :: r) =
            (match stepByteV meros (scanStateAt meros s m) b with
             | (cw2, some v) => v :: scanValsFrom meros cw2 r
             | (cw2, none) => scanValsFrom meros cw2 r) from rfl]
      rw [hstep]
      have hstate : ((⟨m + 1, meros.l_mer,
            cursorFold meros.l_mer ((codesOf s).take (m + 1)), meros.mask⟩ : Cursor),
          (scanStateAt meros s m).2) = scanStateAt meros s (m + 1) := by
        unfold scanStateAt
        rw [show m + 1 - meros.l_mer = 0 from by omega,
          show m + 1 + 1 - meros.l_mer = 0 from by omega]
      show scanValsFrom meros
          ((⟨m + 1, meros.l_mer,
            cursorFold meros.l_mer ((codesOf s).take (m + 1)), meros.mask⟩ : Cursor),
           (scanStateAt meros s m).2) r = _
      rw [hstate, ih s (m + 1) hall hr]
      rw [show (m + 1 + r.length + 1 - meros.l_mer) - (m + 1 + 1 - meros.l_mer) =
            (m + (b :: r).length + 1 - meros.l_mer) - (m + 1 - meros.l_mer) from by
          simp only [List.length_cons]
          omega]
      rw [show m + 1 + 1 - meros.l_mer = m + 1 - meros.l_mer from by omega]

/-- The raw minimizer values of an ACGT-only scan are the window-run
emissions over the candidate stream. -/
theorem scanVals_eq_emValues (meros : Meros) (s : List Nat) (hl : 1 ≤ meros.l_mer)
    (hmask : meros.mask = 2 ^ (2 * meros.l_mer) - 1)
    (hall : ∀ b ∈ s, isACGT b = true) :
    scanVals meros s =
      emValues (candAt meros s) meros.window_size (numCand meros.l_mer s) := by
  have h0 := scanValsFrom_corr meros hl hmask s s 0 hall rfl
  have hstate : scanStateAt meros s 0 =
      (Cursor.mkNew meros, MinimizerWindow.mkNew meros.window_size) := by
    unfold scanStateAt Cursor.mkNew
    rw [show 0 + 1 - meros.l_mer = 0 from by omega]
    rfl
  rw [hstate] at h0
  unfold scanVals
  rw [h0]
  rw [show 0 + 1 - meros.l_mer = 0 from by omega]
  rw [show 0 + s.length + 1 - meros.l_mer - 0 = numCand meros.l_mer s from by
    unfold numCand
    omega]
  have hsplit := emValues_add (candAt meros s) meros.window_size (numCand meros.l_mer s) 0
  rw [show (0 : Nat) + numCand meros.l_mer s = numCand meros.l_mer s from by omega] at hsplit
  rw [hsplit, show emValues (candAt meros s) meros.window_size 0 = [] from rfl,
    List.nil_append]

/-- The window minimum at step `j` of a mirrored candidate stream is the
window minimum at the mirrored step of the original stream. -/
theorem minValEnd_mirror (c c' : Nat → Nat) (w N : Nat)
    (hcc : ∀ p, p ≤ N - 1 → c' p = c (N - 1 - p)) (j : Nat)
    (hj1 : w ≤ j) (hj2 : j ≤ N - 1) :
    minValEnd c' w j = minValEnd c w (N - 1 + w - j) := by
  set i := N - 1 + w - j with hidef
  have hle1 : minValEnd c w i ≤ minValEnd c' w j := by
    unfold minValEnd minPosEnd
    have hlb := minPosFrom_lb c' (j - w) w
    have hub := minPosFrom_ub c' (j - w) w
    set F := minPosFrom c' (j - w) w with hF
    have hFval : c' F = c (N - 1 - F) := hcc F (by omega)
    rw [hFval]
    exact minPosFrom_min c (i - w) w (N - 1 - F) (by omega) (by omega)
  have hle2 : minValEnd c' w j ≤ minValEnd c w i := by
    unfold minValEnd minPosEnd
    have hlb := minPosFrom_lb c (i - w) w
    have hub := minPosFrom_ub c (i - w) w
    set G := minPosFrom c (i - w) w with hG
    have hGval : c' (N - 1 - G) = c G := by
      rw [hcc (N - 1 - G) (by omega)]
      congr 1
      omega
    rw [← hGval]
    exact minPosFrom_min c' (j - w) w (N - 1 - G) (by omega) (by omega)
  omega

/-- For capacity at least 2, mirroring the candidate stream preserves the
set of emitted values. -/
theorem emValues_mirror_mem (c c' : Nat → Nat) (w N : Nat) (hw : 2 ≤ w)
    (hcc : ∀ p, p ≤ N - 1 → c' p = c (N - 1 - p)) (v : Nat) :
    (v ∈ emValues c' w N ↔ v ∈ emValues c w N) := by
  by_cases hN : w + 1 ≤ N
  · obtain ⟨-, hM'⟩ := emValues_mem_iff c' w hw N hN
    obtain ⟨-, hM⟩ := emValues_mem_iff c w hw N hN
    rw [hM' v, hM v]
    constructor
    · rintro ⟨j, hj1, hj2, rfl⟩
      refine ⟨N - 1 + w - j, by omega, by omega, ?_⟩
      exact minValEnd_mirror c c' w N hcc j hj1 hj2
    · rintro ⟨j, hj1, hj2, rfl⟩
      refine ⟨N - 1 + w - j, by omega, by omega, ?_⟩
      have h1 := minValEnd_mirror c c' w N hcc (N - 1 + w - j) (by omega) (by omega)
      rw [show N - 1 + w - (N - 1 + w - j) = j from by omega] at h1
      exact h1.symm
  · rw [emValues_eq_nil c w hw N (by omega), emValues_eq_nil c' w hw N (by omega)]

/-- With capacity 1, mirroring the candidate stream preserves the set of
emitted values (every candidate is emitted on both sides). -/
theorem emValues_cap1_mirror (c c' : Nat → Nat) (N : Nat)
    (hcc : ∀ p, p ≤ N - 1 → c' p = c (N - 1 - p)) (v : Nat) :
    (v ∈ emValues c' 1 N ↔ v ∈ emValues c 1 N) := by
  rw [emValues_cap1, emValues_cap1]
  simp only [List.mem_map, List.mem_range]
  constructor
  · rintro ⟨j, hj, rfl⟩
    exact ⟨N - 1 - j, by omega, (hcc j (by omega)).symm⟩
  · rintro ⟨j, hj, rfl⟩
    refine ⟨N - 1 - j, by omega, ?_⟩
    rw [hcc (N - 1 - j) (by omega)]
    congr 1
    omega

/-- Mirroring preserves the set of raw scan values of an ACGT-only
sequence. -/
theorem scanVals_revcomp_mem (meros : Meros) (s : List Nat)
    (hl : 1 ≤ meros.l_mer)
    (hmask : meros.mask = 2 ^ (2 * meros.l_mer) - 1)
    (hall : ∀ b ∈ s, isACGT b = true) (v : Nat) :
    (v ∈ scanVals meros (seqRevComp s) ↔ v ∈ scanVals meros s) := by
  rw [scanVals_eq_emValues meros s hl hmask hall,
    scanVals_eq_emValues meros (seqRevComp s) hl hmask (seqRevComp_acgt s hall)]
  have hlen' : (seqRevComp s).length = s.length := by
    unfold seqRevComp
    rw [List.length_reverse, List.length_map]
  have hNN : numCand meros.l_mer (seqRevComp s) = numCand meros.l_mer s := by
    unfold numCand
    rw [hlen']
  rw [hNN]
  by_cases hls : meros.l_mer ≤ s.length
  · have hN1 : 1 ≤ numCand meros.l_mer s := by
      unfold numCand
      omega
    have hcc : ∀ p, p ≤ numCand meros.l_mer s - 1 →
        candAt meros (seqRevComp s) p =
          candAt meros s (numCand meros.l_mer s - 1 - p) := by
      intro p hp
      exact candAt_seqRevComp meros s p hall hl hls (by omega)
    rcases Nat.lt_or_ge meros.window_size 2 with hw | hw
    · have hw1 : meros.window_size = 1 := by
        unfold Meros.window_size at hw ⊢
        omega
      rw [hw1]
      exact emValues_cap1_mirror _ _ _ hcc v
    · exact emValues_mirror_mem _ _ _ _ hw hcc v
  · have hN0 : numCand meros.l_mer s = 0 := by
      unfold numCand
      omega
    rw [hN0]
    exact Iff.rfl

/-- C5, amended: for every ACGT-only byte sequence, and every configuration
with `l_mer ≥ 1` whose cursor mask is the derived `2 ^ (2 l_mer) - 1`,
scanning the sequence and scanning its reverse complement produce the same
set of emitted hashes (the multiset form of the claim is refuted by the
counterexample: an identity handover between equal window minima re-emits
in one direction only). -/
theorem c5_revcomp_hash_set (meros : Meros) (s : List Nat)
    (hl : 1 ≤ meros.l_mer)
    (hmask : meros.mask = 2 ^ (2 * meros.l_mer) - 1)
    (hall : ∀ b ∈ s, isACGT b = true) (h : Nat) :
    (h ∈ scanHashes meros (seqRevComp s) ↔ h ∈ scanHashes meros s) := by
  rw [scanHashes_eq, scanHashes_eq]
  simp only [List.mem_map]
  constructor
  · rintro ⟨v, hv, rfl⟩
    exact ⟨v, (scanVals_revcomp_mem meros s hl hmask hall v).mp hv, rfl⟩
  · rintro ⟨v, hv, rfl⟩
    exact ⟨v, (scanVals_revcomp_mem meros s hl hmask hall v).mpr hv, rfl⟩

/-- Witness for the amended C5 theorem at `k_mer = 4`, `l_mer = 3`,
sequence "AAAAGG". -/
theorem c5_revcomp_hash_set_witness :
    (1 ≤ (Meros.create 4 3 0 0).l_mer ∧
     (Meros.create 4 3 0 0).mask = 2 ^ (2 * (Meros.create 4 3 0 0).l_mer) - 1 ∧
     ∀ b ∈ [65, 65, 65, 65, 71, 71], isACGT b = true) ∧
    (0 ∈ scanHashes (Meros.create 4 3 0 0) (seqRevComp [65, 65, 65, 65, 71, 71]) ↔
     0 ∈ scanHashes (Meros.create 4 3 0 0) [65, 65, 65, 65, 71, 71]) :=
  ⟨⟨by decide, by decide, by decide⟩,
   c5_revcomp_hash_set (Meros.create 4 3 0 0) [65, 65, 65, 65, 71, 71]
     (by decide) (by decide) (by decide) 0⟩

end Seqkmer


